import Mathlib

/-!
Shallow embedding of the statistical estimation core of the MATH565 course
notebooks: the adaptive mean estimator `meanMC_CLT`, the binomial proportion
confidence interval `binomialCI`, and the order-statistic quantile confidence
interval `quantileCI`.

External library routines are embedded by their mathematical contracts:
`scipy.stats.norm.ppf` and `scipy.optimize.fsolve` are transcendental /
iterative numeric routines, so they enter the embedding as explicit function
parameters (`normPPF`, `fsolve`); theorems about the exact binomial bounds
hypothesise the root-finding contract (the returned value solves the equation
and lies in the unit interval, as the spec describes).  `scipy.stats.binom`
is a finite polynomial object and is embedded exactly.  Real-valued numpy
arithmetic is embedded as real arithmetic; note that Lean's total division
(`x / 0 = 0`) stands in for numpy's non-raising IEEE division.
-/

/-- Binomial probability mass function `C(n,j) p^j (1-p)^(n-j)`, the exact
mathematical content of `scipy.stats.binom.pmf(j, n, p)`. -/
noncomputable def binomPMF (n j : ℕ) (p : ℝ) : ℝ :=
  (n.choose j : ℝ) * p ^ j * (1 - p) ^ (n - j)

/-- Binomial cumulative distribution function `P(X ≤ k)`, the exact
mathematical content of `scipy.stats.binom.cdf(k, n, p)`. -/
noncomputable def binomCDF (k n : ℕ) (p : ℝ) : ℝ :=
  ∑ j ∈ Finset.range (k + 1), binomPMF n j p

/-- Rational-valued binomial pmf, used by the (fully computable) embedding of
`quantileCI`. -/
def binomPMFq (n j : ℕ) (p : ℚ) : ℚ :=
  (n.choose j : ℚ) * p ^ j * (1 - p) ^ (n - j)

/-- Rational-valued binomial cdf. -/
def binomCDFq (k n : ℕ) (p : ℚ) : ℚ :=
  ∑ j ∈ Finset.range (k + 1), binomPMFq n j p

/-- The predicate whose least witness is `scipy.stats.binom.ppf(q, n, p)`:
either `k` has reached `n` (the ppf of a binomial never exceeds `n` for
`q ≤ 1`, since the cdf at `n` is `1`) or the cdf at `k` has reached `q`. -/
def ppfHit (q : ℚ) (n : ℕ) (p : ℚ) (k : ℕ) : Prop :=
  n ≤ k ∨ q ≤ binomCDFq k n p

instance (q : ℚ) (n : ℕ) (p : ℚ) (k : ℕ) : Decidable (ppfHit q n p k) :=
  inferInstanceAs (Decidable (_ ∨ _))

theorem ppfHit_exists (q : ℚ) (n : ℕ) (p : ℚ) : ∃ k, ppfHit q n p k :=
  ⟨n, Or.inl le_rfl⟩

/-- Discrete inverse cdf `scipy.stats.binom.ppf(q, n, p)`: the smallest `k`
with `BinomCDF(k; n, p) ≥ q` (which for `0 < q ≤ 1` never exceeds `n`). -/
def binomPPF (q : ℚ) (n : ℕ) (p : ℚ) : ℕ :=
  Nat.find (ppfHit_exists q n p)

/-- Embedding of `quantileCI(quant, Xsample, extremes, alpha)`.

Mirrors the source: build the augmented order-statistics array
`Xorder = [extremes[0]] ++ sorted(Xsample) ++ [extremes[1]]` of length
`n + 2`, compute the positions `lo = 1 + binom.ppf(alpha/2, n, quant)` and
`up = 2 + binom.ppf(1 - alpha/2, n, quant)` (ppf values are integral, so the
source's `astype(int)` truncation is the identity), and read both positions
off `Xorder`.  A position outside the array raises `IndexError` in numpy,
embedded here as `none`. -/
def quantileCI (quant : ℚ) (Xsample : List ℚ) (extremes : ℚ × ℚ) (alpha : ℚ) :
    Option (ℚ × ℚ) :=
  let n := Xsample.length
  let Xorder := extremes.1 :: (List.insertionSort (· ≤ ·) Xsample ++ [extremes.2])
  let al2 := alpha / 2
  let lo := 1 + binomPPF al2 n quant
  let up := 2 + binomPPF (1 - al2) n quant
  match Xorder[lo]?, Xorder[up]? with
  | some a, some b => some (a, b)
  | _, _ => none

/-- Embedding of `binomialCI(ntot, nsuc, alpha)`.

`fsolve` stands for `scipy.optimize.fsolve` (a numeric root finder applied to
the shifted binomial cdf, seeded at the observed proportion) and `normPPF`
for `scipy.stats.norm.ppf`.  Returns `(exactci, cltci)` as pairs
`(lower, upper)`. -/
noncomputable def binomialCI (fsolve : (ℝ → ℝ) → ℝ → ℝ) (normPPF : ℝ → ℝ)
    (ntot nsuc : ℕ) (alpha : ℝ) : (ℝ × ℝ) × (ℝ × ℝ) :=
  let obsprob : ℝ := (nsuc : ℝ) / (ntot : ℝ)
  let al2 := alpha / 2
  let plo : ℝ :=
    if nsuc = 0 then 0
    else fsolve (fun x => binomCDF (nsuc - 1) ntot x - 1 + al2) obsprob
  let pup : ℝ :=
    if nsuc = ntot then 1
    else fsolve (fun x => binomCDF nsuc ntot x - al2) obsprob
  let halfWidth := -normPPF al2 * Real.sqrt (obsprob * (1 - obsprob)) / Real.sqrt ntot
  ((plo, pup), (obsprob + (-1) * halfWidth, obsprob + 1 * halfWidth))

/-- Arithmetic mean `np.mean` of a sample vector. -/
noncomputable def sampleMean (xs : List ℝ) : ℝ := xs.sum / xs.length

/-- Sample standard deviation `np.std(xs, ddof = 1)`: square root of the
sum of squared deviations from the mean divided by `len - 1` (the unbiased
variance estimator). -/
noncomputable def sampleStd (xs : List ℝ) : ℝ :=
  Real.sqrt ((xs.map fun x => (x - sampleMean xs) ^ 2).sum / ((xs.length : ℝ) - 1))

/-- Embedding of `meanMC_CLT(inputRandomFuc, absTol, relTol, alpha)`.

`normPPF` stands for `scipy.stats.norm.ppf`; the sampling function is a map
from a requested count to the sample vector that call returns.  The second
component is the reported total sample count `nsig + nmu`.  The source
computes `nmu` as `np.power(np.ceil(z*sigmaUpBound/max(absTol,relTol)), 2)
.astype(int)` clamped below by `1`: the ceiling is taken first and then
squared, and the square of the (integral) ceiling is already an integer, so
the truncating cast is the identity. -/
noncomputable def meanMC_CLT (normPPF : ℝ → ℝ) (inputRandomFuc : ℕ → List ℝ)
    (absTol relTol alpha : ℝ) : ℝ × ℤ :=
  let nsig : ℕ := 1000
  let inflate : ℝ := 1.2
  let YY := inputRandomFuc nsig
  let sigma := sampleStd YY
  let sigmaUpBound := sigma * inflate
  let nmu : ℤ := max 1 (⌈normPPF (1 - alpha / 2) * sigmaUpBound / max absTol relTol⌉ ^ 2)
  let mu := sampleMean (inputRandomFuc nmu.toNat)
  (mu, (nsig : ℤ) + nmu)

/-! ### Claim C7: pilot draw, unbiased std, fresh second-stage mean -/

/-- Claim C7: `meanMC_CLT` draws the pilot sample by calling the sampling
function at the fixed size `1000`, computes the pilot standard deviation with
the unbiased (`n - 1` denominator) estimator, returns as `muHat` the
arithmetic mean of only the fresh second-stage sample of size `nMu`, and
reports the total sample count `1000 + nMu`. -/
theorem claim_C7 (normPPF : ℝ → ℝ) (f : ℕ → List ℝ) (absTol relTol alpha : ℝ) :
    ∃ nmu : ℤ,
      nmu = max 1 (⌈normPPF (1 - alpha / 2) *
          (Real.sqrt (((f 1000).map fun x =>
              (x - (f 1000).sum / ((f 1000).length : ℝ)) ^ 2).sum /
            (((f 1000).length : ℝ) - 1)) * 1.2) / max absTol relTol⌉ ^ 2) ∧
      meanMC_CLT normPPF f absTol relTol alpha =
        ((f nmu.toNat).sum / ((f nmu.toNat).length : ℝ), 1000 + nmu) :=
  ⟨_, rfl, rfl⟩

/-! ### Claim C4: zero tolerances do not raise -/

/-- Claim C4 (code bug evidence): called with `absTol = relTol = 0`,
`meanMC_CLT` does not fail: the division by the zero tolerance produces no
exception (numpy yields `inf` with only a warning; the total real division
of the embedding models the non-raising path), the clamp `max 1 _` forces a
degenerate second-stage size, and the call silently returns a mean of that
degenerate sample together with `totalSamples = 1001`. -/
theorem claim_C4 :
    meanMC_CLT (fun _ => 3) (fun n => List.replicate n 0) 0 0 (1 / 100) = (0, 1001) := by
  unfold meanMC_CLT sampleStd sampleMean
  norm_num [List.sum_replicate, List.map_replicate]

/-! ### Claim C1: the sample-size formula squares the ceiling -/

/-- Constant stand-in for `scipy.stats.norm.ppf` used to evaluate the
sample-size formula at a concrete input. -/
noncomputable def ppfC1 : ℝ → ℝ := fun _ => 5 / 4

/-- Concrete sampling function whose size-1000 pilot sample has mean `0` and
unbiased sample variance exactly `1`. -/
noncomputable def fC1 : ℕ → List ℝ := fun n =>
  Real.sqrt (999 / 2) :: -Real.sqrt (999 / 2) :: List.replicate (n - 2) 0

theorem sampleMean_fC1 : sampleMean (fC1 1000) = 0 := by
  unfold fC1 sampleMean
  norm_num [List.sum_replicate]

theorem sampleStd_fC1 : sampleStd (fC1 1000) = 1 := by
  unfold sampleStd
  rw [sampleMean_fC1]
  have hsq : Real.sqrt (999 / 2) ^ 2 = 999 / 2 := Real.sq_sqrt (by norm_num)
  unfold fC1
  simp only [List.map_cons, List.map_replicate, List.sum_cons, List.sum_replicate,
    List.length_cons, List.length_replicate, sub_zero, smul_zero, add_zero, neg_sq, hsq]
  norm_num [Real.sqrt_one]

theorem ceil_three_halves : ⌈(3 / 2 : ℝ)⌉ = 2 := by
  rw [Int.ceil_eq_iff]
  norm_num

theorem ceil_nine_fourths : ⌈(9 / 4 : ℝ)⌉ = 3 := by
  rw [Int.ceil_eq_iff]
  norm_num

/-- Claim C1 counterexample: at a call whose pilot standard deviation is `1`,
with `z = 5/4`, `inflate = 1.2` and `tol = 1` (so `z·sigmaUpBound/tol = 3/2`),
the code's second-stage size is `ceil(3/2)^2 = 4` while the claimed formula
`max(1, ceil((z·sigmaUpBound/tol)^2))` gives `ceil(9/4) = 3`: the claimed
equality is false. -/
theorem claim_C1_counterexample :
    ¬ ((meanMC_CLT ppfC1 fC1 1 0 (1 / 100)).2 =
        1000 + max 1 (⌈(ppfC1 (1 - (1 / 100) / 2) *
          (sampleStd (fC1 1000) * 1.2) / max (1 : ℝ) 0) ^ 2⌉)) := by
  have hstd : sampleStd (fC1 1000) = 1 := sampleStd_fC1
  have hL : (meanMC_CLT ppfC1 fC1 1 0 (1 / 100)).2 = 1004 := by
    have hdef : (meanMC_CLT ppfC1 fC1 1 0 (1 / 100)).2 =
        1000 + max 1 (⌈ppfC1 (1 - 1 / 100 / 2) * (sampleStd (fC1 1000) * 1.2) /
          max (1 : ℝ) 0⌉ ^ 2) := rfl
    rw [hdef, hstd]
    have h32 : (ppfC1 (1 - 1 / 100 / 2) * ((1 : ℝ) * 1.2) / max (1 : ℝ) 0) = 3 / 2 := by
      unfold ppfC1; norm_num
    rw [h32, ceil_three_halves]
    decide
  have hR : (1000 + max 1 (⌈(ppfC1 (1 - (1 / 100) / 2) *
      (sampleStd (fC1 1000) * 1.2) / max (1 : ℝ) 0) ^ 2⌉) : ℤ) = 1003 := by
    rw [hstd]
    have : (ppfC1 (1 - 1 / 100 / 2) * ((1:ℝ) * 1.2) / max (1 : ℝ) 0) ^ 2 = 9 / 4 := by
      unfold ppfC1; norm_num
    rw [this, ceil_nine_fourths]
    decide
  rw [hL, hR]
  decide

/-- Claim C1 as amended: for every call with a positive working tolerance,
the required second-stage sample size is `max(1, (ceil(z·sigmaUpBound/tol))²)`
with `z = normPPF(1 - alpha/2)`, `sigmaUpBound` the inflated pilot standard
deviation and `tol = max(absTol, relTol)`: the ceiling is taken first and
then squared (not the ceiling of the square). -/
theorem claim_C1_amended (normPPF : ℝ → ℝ) (f : ℕ → List ℝ) (absTol relTol alpha : ℝ)
    (htol : 0 < max absTol relTol) :
    (meanMC_CLT normPPF f absTol relTol alpha).2 =
      1000 + max 1 (⌈normPPF (1 - alpha / 2) * (sampleStd (f 1000) * 1.2) /
        max absTol relTol⌉ ^ 2) := rfl

theorem claim_C1_witness :
    0 < max (1 : ℝ) 0 ∧
    (meanMC_CLT ppfC1 fC1 1 0 (1 / 100)).2 =
      1000 + max 1 (⌈ppfC1 (1 - (1 / 100) / 2) * (sampleStd (fC1 1000) * 1.2) /
        max (1 : ℝ) 0⌉ ^ 2) :=
  ⟨by norm_num, claim_C1_amended ppfC1 fC1 1 0 (1 / 100) (by norm_num)⟩

/-! ### Binomial inverse-cdf lemmas -/

theorem binomCDFq_self (n : ℕ) (p : ℚ) : binomCDFq n n p = 1 := by
  have h : (p + (1 - p)) ^ n =
      ∑ m ∈ Finset.range (n + 1), p ^ m * (1 - p) ^ (n - m) * (n.choose m : ℚ) :=
    add_pow p (1 - p) n
  have h1 : binomCDFq n n p =
      ∑ m ∈ Finset.range (n + 1), p ^ m * (1 - p) ^ (n - m) * (n.choose m : ℚ) := by
    unfold binomCDFq binomPMFq
    exact Finset.sum_congr rfl fun j _ => by ring
  rw [h1, ← h]
  norm_num

theorem binomPPF_le (q : ℚ) (n : ℕ) (p : ℚ) : binomPPF q n p ≤ n :=
  Nat.find_le (Or.inl le_rfl)

theorem binomPPF_mono {q₁ q₂ : ℚ} (h : q₁ ≤ q₂) (n : ℕ) (p : ℚ) :
    binomPPF q₁ n p ≤ binomPPF q₂ n p :=
  Nat.find_mono fun k hk => hk.imp id fun h2 => le_trans h h2

/-! ### Order-statistics array lemmas -/

theorem Xorder_length (Xsample : List ℚ) (e1 e2 : ℚ) :
    (e1 :: (List.insertionSort (· ≤ ·) Xsample ++ [e2])).length = Xsample.length + 2 := by
  simp [List.length_insertionSort]

theorem Xorder_sorted (Xsample : List ℚ) (e1 e2 : ℚ)
    (hb1 : ∀ x ∈ Xsample, e1 ≤ x) (hb2 : ∀ x ∈ Xsample, x ≤ e2) (h12 : e1 ≤ e2) :
    (e1 :: (List.insertionSort (· ≤ ·) Xsample ++ [e2])).Sorted (· ≤ ·) := by
  have hperm := List.perm_insertionSort (· ≤ ·) Xsample
  have hsorted := List.sorted_insertionSort (· ≤ ·) Xsample
  rw [List.sorted_cons]
  refine ⟨?_, ?_⟩
  · intro b hb
    rcases List.mem_append.mp hb with hb | hb
    · exact hb1 b (hperm.mem_iff.mp hb)
    · rw [List.mem_singleton] at hb
      subst hb
      exact h12
  · refine List.pairwise_append.mpr ⟨hsorted, List.sorted_singleton e2, ?_⟩
    intro x hx y hy
    rw [List.mem_singleton] at hy
    subst hy
    exact hb2 x (hperm.mem_iff.mp hx)

theorem sorted_getD_mono {l : List ℚ} (hs : l.Sorted (· ≤ ·)) {i j : ℕ}
    (hij : i ≤ j) (hj : j < l.length) : l.getD i 0 ≤ l.getD j 0 := by
  have hi : i < l.length := lt_of_le_of_lt hij hj
  rw [List.getD_eq_getElem?_getD, List.getD_eq_getElem?_getD,
    List.getElem?_eq_getElem hi, List.getElem?_eq_getElem hj]
  simp only [Option.getD_some]
  rcases Nat.eq_or_lt_of_le hij with h | h
  · cases h
    exact le_rfl
  · exact List.Sorted.rel_get_of_lt hs (Fin.mk_lt_mk.mpr h)

theorem Xorder_getD_zero (Xsample : List ℚ) (e1 e2 : ℚ) :
    (e1 :: (List.insertionSort (· ≤ ·) Xsample ++ [e2])).getD 0 0 = e1 := rfl

theorem Xorder_getD_top (Xsample : List ℚ) (e1 e2 : ℚ) :
    (e1 :: (List.insertionSort (· ≤ ·) Xsample ++ [e2])).getD (Xsample.length + 1) 0 = e2 := by
  rw [List.getD_eq_getElem?_getD]
  have hlt : Xsample.length + 1 < (e1 :: (List.insertionSort (· ≤ ·) Xsample ++ [e2])).length := by
    rw [Xorder_length]
    omega
  rw [List.getElem?_eq_getElem hlt]
  simp only [Option.getD_some]
  rw [List.getElem_cons_succ]
  exact List.getElem_concat_length _ e2 _ (List.length_insertionSort _ _).symm _

/-- If the upper position is within the augmented array, `quantileCI` returns
the pair of entries of the sorted augmented array at the two positions. -/
theorem quantileCI_eq_some (quant alpha : ℚ) (Xsample : List ℚ) (e1 e2 : ℚ)
    (hup : 2 + binomPPF (1 - alpha / 2) Xsample.length quant ≤ Xsample.length + 1) :
    quantileCI quant Xsample (e1, e2) alpha =
      some ((e1 :: (List.insertionSort (· ≤ ·) Xsample ++ [e2])).getD
              (1 + binomPPF (alpha / 2) Xsample.length quant) 0,
            (e1 :: (List.insertionSort (· ≤ ·) Xsample ++ [e2])).getD
              (2 + binomPPF (1 - alpha / 2) Xsample.length quant) 0) := by
  have hlo : 1 + binomPPF (alpha / 2) Xsample.length quant
      < (e1 :: (List.insertionSort (· ≤ ·) Xsample ++ [e2])).length := by
    have := binomPPF_le (alpha / 2) Xsample.length quant
    rw [Xorder_length]
    omega
  have hup2 : 2 + binomPPF (1 - alpha / 2) Xsample.length quant
      < (e1 :: (List.insertionSort (· ≤ ·) Xsample ++ [e2])).length := by
    rw [Xorder_length]
    omega
  simp only [quantileCI]
  rw [List.getElem?_eq_getElem hlo, List.getElem?_eq_getElem hup2]
  rw [List.getD_eq_getElem?_getD, List.getD_eq_getElem?_getD,
    List.getElem?_eq_getElem hlo, List.getElem?_eq_getElem hup2]
  simp only [Option.getD_some]

/-! ### Concrete inverse-cdf evaluations -/

theorem ppf_low_n1 : binomPPF (1 / 20 / 2) 1 (1 / 2) = 0 := by
  rw [binomPPF, Nat.find_eq_iff]
  refine ⟨Or.inr ?_, fun k hk => absurd hk (Nat.not_lt_zero k)⟩
  norm_num [binomCDFq, binomPMFq, Finset.sum_range_one]

theorem ppf_up_n1 : binomPPF (1 - 1 / 20 / 2) 1 (1 / 2) = 1 := by
  rw [binomPPF, Nat.find_eq_iff]
  refine ⟨Or.inl le_rfl, ?_⟩
  intro k hk
  interval_cases k
  norm_num [ppfHit, binomCDFq, binomPMFq, Finset.sum_range_one]

theorem ppf_w2_low : binomPPF (1 / 2 / 2) 2 (1 / 10) = 0 := by
  rw [binomPPF, Nat.find_eq_iff]
  refine ⟨Or.inr ?_, fun k hk => absurd hk (Nat.not_lt_zero k)⟩
  norm_num [binomCDFq, binomPMFq, Finset.sum_range_one]

theorem ppf_w2_up : binomPPF (1 - 1 / 2 / 2) 2 (1 / 10) = 0 := by
  rw [binomPPF, Nat.find_eq_iff]
  refine ⟨Or.inr ?_, fun k hk => absurd hk (Nat.not_lt_zero k)⟩
  norm_num [binomCDFq, binomPMFq, Finset.sum_range_one]

theorem ppf_w9_low : binomPPF (1 / 2 / 2) 3 (1 / 10) = 0 := by
  rw [binomPPF, Nat.find_eq_iff]
  refine ⟨Or.inr ?_, fun k hk => absurd hk (Nat.not_lt_zero k)⟩
  norm_num [binomCDFq, binomPMFq, Finset.sum_range_one]

theorem ppf_w9_up : binomPPF (1 - 1 / 2 / 2) 3 (1 / 10) = 1 := by
  rw [binomPPF, Nat.find_eq_iff]
  constructor
  · refine Or.inr ?_
    norm_num [binomCDFq, binomPMFq, Finset.sum_range_succ, Finset.sum_range_one]
  · intro k hk
    interval_cases k
    norm_num [ppfHit, binomCDFq, binomPMFq, Finset.sum_range_one]

/-! ### Claim C2: quantile interval index arithmetic -/

/-- Claim C2 counterexample: with a valid one-point sample, `quant = 1/2` and
`alpha = 1/20`, the upper position is `2 + BinomQuantile(0.975; 1, 0.5) = 3`,
which lies outside the augmented array of length `3`; the source raises
`IndexError` (embedded as `none`) instead of clamping the index to `n + 1`
as the claim asserts. -/
theorem claim_C2_counterexample :
    quantileCI (1 / 2) [0] (-1, 1) (1 / 20) = none := by
  simp only [quantileCI, List.length_cons, List.length_nil, Nat.zero_add,
    ppf_low_n1, ppf_up_n1]
  decide

/-- Claim C2 as amended: the returned interval is read off the augmented
sorted array (position 0 holds `loBound`, positions `1..n` the sample sorted
ascending, position `n+1` holds `hiBound`) at positions
`1 + BinomQuantile(alpha/2; n, quant)` and
`2 + BinomQuantile(1 - alpha/2; n, quant)` (integral values, so integer
truncation is the identity) provided the upper position is at most `n + 1`;
an out-of-range position is an index error (`none`), not a clamp. -/
theorem claim_C2_amended (quant alpha : ℚ) (Xsample : List ℚ) (e1 e2 : ℚ)
    (hup : 2 + binomPPF (1 - alpha / 2) Xsample.length quant ≤ Xsample.length + 1) :
    quantileCI quant Xsample (e1, e2) alpha =
      some ((e1 :: (List.insertionSort (· ≤ ·) Xsample ++ [e2])).getD
              (1 + binomPPF (alpha / 2) Xsample.length quant) 0,
            (e1 :: (List.insertionSort (· ≤ ·) Xsample ++ [e2])).getD
              (2 + binomPPF (1 - alpha / 2) Xsample.length quant) 0) :=
  quantileCI_eq_some quant alpha Xsample e1 e2 hup

theorem claim_C2_witness :
    quantileCI (1 / 10) [2, 1] (0, 5) (1 / 2) = some (1, 2) := by
  have hup : 2 + binomPPF (1 - 1 / 2 / 2) ([2, 1] : List ℚ).length (1 / 10)
      ≤ ([2, 1] : List ℚ).length + 1 := by
    show 2 + binomPPF (1 - 1 / 2 / 2) 2 (1 / 10) ≤ 3
    rw [ppf_w2_up]
    omega
  have h := claim_C2_amended (1 / 10) (1 / 2) [2, 1] 0 5 hup
  rw [h]
  have hv1 : binomPPF (1 / 2 / 2) ([2, 1] : List ℚ).length (1 / 10) = 0 := ppf_w2_low
  have hv2 : binomPPF (1 - 1 / 2 / 2) ([2, 1] : List ℚ).length (1 / 10) = 0 := ppf_w2_up
  rw [hv1, hv2]
  decide

/-! ### Claim C9: quantile interval bounds -/

/-- Claim C9 counterexample: a fully valid call (`quant`, `alpha` in `(0,1)`,
non-empty sample, extremes bracketing the sample) on which the upper position
is `n + 2`, so the source raises `IndexError` (embedded as `none`) rather
than returning an interval as the claim asserts. -/
theorem claim_C9_counterexample :
    quantileCI (1 / 2) [5] (4, 6) (1 / 20) = none := by
  simp only [quantileCI, List.length_cons, List.length_nil, Nat.zero_add,
    ppf_low_n1, ppf_up_n1]
  decide

/-- Claim C9 as amended: for a valid call with bracketing extremes whose
computed upper position stays inside the augmented array, `quantileCI`
returns normally and the interval `[lo, hi]` satisfies
`loBound ≤ lo ≤ hi ≤ hiBound`. -/
theorem claim_C9_amended (quant alpha : ℚ) (Xsample : List ℚ) (e1 e2 : ℚ)
    (hq : 0 < quant ∧ quant < 1) (ha : 0 < alpha ∧ alpha < 1)
    (hne : Xsample ≠ [])
    (hb1 : ∀ x ∈ Xsample, e1 ≤ x) (hb2 : ∀ x ∈ Xsample, x ≤ e2)
    (hup : 2 + binomPPF (1 - alpha / 2) Xsample.length quant ≤ Xsample.length + 1) :
    ∃ lo hi : ℚ, quantileCI quant Xsample (e1, e2) alpha = some (lo, hi) ∧
      e1 ≤ lo ∧ lo ≤ hi ∧ hi ≤ e2 := by
  obtain ⟨x0, hx0⟩ := List.exists_mem_of_ne_nil Xsample hne
  have h12 : e1 ≤ e2 := le_trans (hb1 x0 hx0) (hb2 x0 hx0)
  have hsorted := Xorder_sorted Xsample e1 e2 hb1 hb2 h12
  have hlen := Xorder_length Xsample e1 e2
  have hlo_le_hup : 1 + binomPPF (alpha / 2) Xsample.length quant
      ≤ 2 + binomPPF (1 - alpha / 2) Xsample.length quant := by
    have hmono : binomPPF (alpha / 2) Xsample.length quant
        ≤ binomPPF (1 - alpha / 2) Xsample.length quant :=
      binomPPF_mono (by linarith [ha.2]) Xsample.length quant
    omega
  have htop_lt : Xsample.length + 1
      < (e1 :: (List.insertionSort (· ≤ ·) Xsample ++ [e2])).length := by
    omega
  have hup_lt : 2 + binomPPF (1 - alpha / 2) Xsample.length quant
      < (e1 :: (List.insertionSort (· ≤ ·) Xsample ++ [e2])).length := by
    omega
  refine ⟨_, _, quantileCI_eq_some quant alpha Xsample e1 e2 hup, ?_, ?_, ?_⟩
  · have := sorted_getD_mono hsorted
      (Nat.zero_le (1 + binomPPF (alpha / 2) Xsample.length quant))
      (lt_of_le_of_lt hlo_le_hup hup_lt)
    rw [Xorder_getD_zero] at this
    exact this
  · exact sorted_getD_mono hsorted hlo_le_hup hup_lt
  · have := sorted_getD_mono hsorted hup htop_lt
    rw [Xorder_getD_top] at this
    exact this

theorem claim_C9_witness :
    ∃ lo hi : ℚ, quantileCI (1 / 10) [1, 2, 3] (0, 10) (1 / 2) = some (lo, hi) ∧
      0 ≤ lo ∧ lo ≤ hi ∧ hi ≤ 10 := by
  have hup : 2 + binomPPF (1 - 1 / 2 / 2) ([1, 2, 3] : List ℚ).length (1 / 10)
      ≤ ([1, 2, 3] : List ℚ).length + 1 := by
    show 2 + binomPPF (1 - 1 / 2 / 2) 3 (1 / 10) ≤ 4
    rw [ppf_w9_up]
    omega
  refine claim_C9_amended (1 / 10) (1 / 2) [1, 2, 3] 0 10 (by norm_num) (by norm_num)
    (by simp) ?_ ?_ hup
  · intro x hx
    fin_cases hx
    all_goals norm_num
  · intro x hx
    fin_cases hx
    all_goals norm_num

/-! ### Claim C5: no input validation -/

/-- Claim C5 (code bug evidence): neither routine validates its inputs.
Called with the invalid confidence parameter `alpha = 3/2` (outside `(0,1)`),
`binomialCI` silently runs the root solver and returns a numeric pair, and
`quantileCI` silently returns an interval, instead of failing fast with a
domain error as the claim requires. -/
theorem claim_C5 :
    (binomialCI (fun _ _ => 1 / 2) (fun _ => 0) 10 5 (3 / 2)).1 = (1 / 2, 1 / 2) ∧
    quantileCI (1 / 2) [1, 2, 3] (0, 4) (3 / 2) = some (3, 3) := by
  constructor
  · simp [binomialCI]
  · have hlow : binomPPF (3 / 2 / 2) 3 (1 / 2) = 2 := by
      rw [binomPPF, Nat.find_eq_iff]
      constructor
      · refine Or.inr ?_
        norm_num [binomCDFq, binomPMFq, Finset.sum_range_succ, Finset.sum_range_one]
      · intro k hk
        interval_cases k
        all_goals norm_num [ppfHit, binomCDFq, binomPMFq, Finset.sum_range_succ,
          Finset.sum_range_one]
    have hupv : binomPPF (1 - 3 / 2 / 2) 3 (1 / 2) = 1 := by
      rw [binomPPF, Nat.find_eq_iff]
      constructor
      · refine Or.inr ?_
        norm_num [binomCDFq, binomPMFq, Finset.sum_range_succ, Finset.sum_range_one]
      · intro k hk
        interval_cases k
        norm_num [ppfHit, binomCDFq, binomPMFq, Finset.sum_range_one]
    simp only [quantileCI, List.length_cons, List.length_nil, Nat.zero_add, hlow, hupv]
    decide

/-! ### Real binomial cdf evaluations and `binomialCI` projections -/

theorem binomCDF_zero_k (n : ℕ) (p : ℝ) : binomCDF 0 n p = (1 - p) ^ n := by
  unfold binomCDF binomPMF
  simp [Finset.sum_range_one]

theorem binomCDF_self (n : ℕ) (p : ℝ) : binomCDF n n p = 1 := by
  have h : (p + (1 - p)) ^ n =
      ∑ m ∈ Finset.range (n + 1), p ^ m * (1 - p) ^ (n - m) * (n.choose m : ℝ) :=
    add_pow p (1 - p) n
  have h1 : binomCDF n n p =
      ∑ m ∈ Finset.range (n + 1), p ^ m * (1 - p) ^ (n - m) * (n.choose m : ℝ) := by
    unfold binomCDF binomPMF
    exact Finset.sum_congr rfl fun j _ => by ring
  rw [h1, ← h]
  norm_num

theorem binomCDF_pred (n : ℕ) (hn : 0 < n) (p : ℝ) :
    binomCDF (n - 1) n p = 1 - p ^ n := by
  have hsucc : n - 1 + 1 = n := Nat.succ_pred_eq_of_pos hn
  have h : binomCDF n n p = binomCDF (n - 1) n p + binomPMF n n p := by
    unfold binomCDF
    rw [Finset.sum_range_succ]
    congr 2
    rw [hsucc]
  have hpmf : binomPMF n n p = p ^ n := by
    unfold binomPMF
    simp
  rw [binomCDF_self, hpmf] at h
  linarith

theorem binomialCI_clt (fsolve : (ℝ → ℝ) → ℝ → ℝ) (normPPF : ℝ → ℝ)
    (ntot nsuc : ℕ) (alpha : ℝ) :
    (binomialCI fsolve normPPF ntot nsuc alpha).2 =
      ((nsuc : ℝ) / ntot + (-1) * (-normPPF (alpha / 2) *
          Real.sqrt ((nsuc : ℝ) / ntot * (1 - (nsuc : ℝ) / ntot)) / Real.sqrt ntot),
       (nsuc : ℝ) / ntot + 1 * (-normPPF (alpha / 2) *
          Real.sqrt ((nsuc : ℝ) / ntot * (1 - (nsuc : ℝ) / ntot)) / Real.sqrt ntot)) := rfl

theorem binomialCI_plo_zero (fsolve : (ℝ → ℝ) → ℝ → ℝ) (normPPF : ℝ → ℝ)
    (ntot : ℕ) (alpha : ℝ) :
    (binomialCI fsolve normPPF ntot 0 alpha).1.1 = 0 := by
  simp [binomialCI]

theorem binomialCI_plo_solver (fsolve : (ℝ → ℝ) → ℝ → ℝ) (normPPF : ℝ → ℝ)
    (ntot nsuc : ℕ) (alpha : ℝ) (h : nsuc ≠ 0) :
    (binomialCI fsolve normPPF ntot nsuc alpha).1.1 =
      fsolve (fun x => binomCDF (nsuc - 1) ntot x - 1 + alpha / 2) ((nsuc : ℝ) / ntot) := by
  simp [binomialCI, h]

theorem binomialCI_pup_one (fsolve : (ℝ → ℝ) → ℝ → ℝ) (normPPF : ℝ → ℝ)
    (ntot : ℕ) (alpha : ℝ) :
    (binomialCI fsolve normPPF ntot ntot alpha).1.2 = 1 := by
  simp [binomialCI]

theorem binomialCI_pup_solver (fsolve : (ℝ → ℝ) → ℝ → ℝ) (normPPF : ℝ → ℝ)
    (ntot nsuc : ℕ) (alpha : ℝ) (h : nsuc ≠ ntot) :
    (binomialCI fsolve normPPF ntot nsuc alpha).1.2 =
      fsolve (fun x => binomCDF nsuc ntot x - alpha / 2) ((nsuc : ℝ) / ntot) := by
  simp [binomialCI, h]

/-! ### Claim C10: degenerate Wald intervals at the extremes -/

/-- Claim C10: at `nSuccess = 0` the CLT (Wald) interval is exactly `[0, 0]`
and at `nSuccess = nTotal` it is exactly `[1, 1]` (the Wald half-width
vanishes at observed proportions `0` and `1`), while the exact interval has
strictly positive width in both extreme cases (under the root-finding
contract for the non-degenerate exact bound). -/
theorem claim_C10 (fsolve : (ℝ → ℝ) → ℝ → ℝ) (normPPF : ℝ → ℝ) (ntot : ℕ) (alpha : ℝ)
    (hn : 0 < ntot) (ha0 : 0 < alpha) (ha1 : alpha < 1)
    (hroot0 : binomCDF 0 ntot ((binomialCI fsolve normPPF ntot 0 alpha).1.2) = alpha / 2)
    (hrootn : binomCDF (ntot - 1) ntot ((binomialCI fsolve normPPF ntot ntot alpha).1.1)
      = 1 - alpha / 2) :
    (binomialCI fsolve normPPF ntot 0 alpha).2 = (0, 0) ∧
    (binomialCI fsolve normPPF ntot ntot alpha).2 = (1, 1) ∧
    0 < (binomialCI fsolve normPPF ntot 0 alpha).1.2
        - (binomialCI fsolve normPPF ntot 0 alpha).1.1 ∧
    0 < (binomialCI fsolve normPPF ntot ntot alpha).1.2
        - (binomialCI fsolve normPPF ntot ntot alpha).1.1 := by
  have hne : (ntot : ℝ) ≠ 0 := Nat.cast_ne_zero.mpr hn.ne'
  refine ⟨?_, ?_, ?_, ?_⟩
  · rw [binomialCI_clt]
    norm_num
  · rw [binomialCI_clt]
    rw [div_self hne]
    norm_num
  · rw [binomialCI_plo_zero]
    rw [binomCDF_zero_k] at hroot0
    by_contra hle
    push_neg at hle
    have h1 : (1 : ℝ) ≤ 1 - (binomialCI fsolve normPPF ntot 0 alpha).1.2 := by linarith
    have h2 : (1 : ℝ) ≤ (1 - (binomialCI fsolve normPPF ntot 0 alpha).1.2) ^ ntot :=
      one_le_pow₀ h1
    rw [hroot0] at h2
    linarith
  · rw [binomialCI_pup_one]
    rw [binomCDF_pred ntot hn] at hrootn
    have hpow : (binomialCI fsolve normPPF ntot ntot alpha).1.1 ^ ntot = alpha / 2 := by
      linarith
    by_contra hle
    push_neg at hle
    have h1 : (1 : ℝ) ≤ (binomialCI fsolve normPPF ntot ntot alpha).1.1 := by linarith
    have h2 : (1 : ℝ) ≤ (binomialCI fsolve normPPF ntot ntot alpha).1.1 ^ ntot :=
      one_le_pow₀ h1
    rw [hpow] at h2
    linarith

theorem claim_C10_witness :
    (binomialCI (fun _ x0 => if x0 = 0 then 3 / 4 else 1 / 4) (fun _ => 0) 1 0 (1 / 2)).2
        = (0, 0) ∧
    (binomialCI (fun _ x0 => if x0 = 0 then 3 / 4 else 1 / 4) (fun _ => 0) 1 1 (1 / 2)).2
        = (1, 1) ∧
    0 < (binomialCI (fun _ x0 => if x0 = 0 then 3 / 4 else 1 / 4) (fun _ => 0) 1 0 (1 / 2)).1.2
        - (binomialCI (fun _ x0 => if x0 = 0 then 3 / 4 else 1 / 4) (fun _ => 0) 1 0 (1 / 2)).1.1 ∧
    0 < (binomialCI (fun _ x0 => if x0 = 0 then 3 / 4 else 1 / 4) (fun _ => 0) 1 1 (1 / 2)).1.2
        - (binomialCI (fun _ x0 => if x0 = 0 then 3 / 4 else 1 / 4) (fun _ => 0) 1 1 (1 / 2)).1.1 := by
  refine claim_C10 (fun _ x0 => if x0 = 0 then 3 / 4 else 1 / 4) (fun _ => 0) 1 (1 / 2)
    (by norm_num) (by norm_num) (by norm_num) ?_ ?_
  · have hup : (binomialCI (fun _ x0 => if x0 = 0 then (3 : ℝ) / 4 else 1 / 4)
        (fun _ => 0) 1 0 (1 / 2)).1.2 = 3 / 4 := by
      rw [binomialCI_pup_solver _ _ _ _ _ (by norm_num)]
      norm_num
    rw [hup, binomCDF_zero_k]
    norm_num
  · have hlo : (binomialCI (fun _ x0 => if x0 = 0 then (3 : ℝ) / 4 else 1 / 4)
        (fun _ => 0) 1 1 (1 / 2)).1.1 = 1 / 4 := by
      rw [binomialCI_plo_solver _ _ _ _ _ (by norm_num)]
      norm_num
    rw [hlo]
    show binomCDF 0 1 (1 / 4) = 1 - 1 / 2 / 2
    rw [binomCDF_zero_k]
    norm_num

/-! ### Claim C6: the Wald interval formula and its unclipped endpoints -/

/-- Claim C6: for every valid call, the CLT (Wald) interval is exactly
`obsProb ± (-normPPF(alpha/2)) * sqrt(obsProb*(1-obsProb)/nTotal)` with no
clipping to `[0,1]`; consequently, whenever the normal quantile satisfies
`-normPPF(a/2) > 1` for some confidence parameter `a` in `(0,1)` (true of
the standard normal inverse cdf for small `a`, e.g. `a = 0.01`), there are
valid inputs (extreme observed proportion, small total count relative to the
quantile) whose lower CLT endpoint is negative. -/
theorem claim_C6 (fsolve : (ℝ → ℝ) → ℝ → ℝ) (normPPF : ℝ → ℝ) (ntot nsuc : ℕ)
    (alpha : ℝ) (hn : 0 < ntot) (hsn : nsuc ≤ ntot)
    (hz : ∃ a : ℝ, 0 < a ∧ a < 1 ∧ 1 < -normPPF (a / 2)) :
    ((binomialCI fsolve normPPF ntot nsuc alpha).2 =
      ((nsuc : ℝ) / ntot - -normPPF (alpha / 2) *
          Real.sqrt ((nsuc : ℝ) / ntot * (1 - (nsuc : ℝ) / ntot) / ntot),
       (nsuc : ℝ) / ntot + -normPPF (alpha / 2) *
          Real.sqrt ((nsuc : ℝ) / ntot * (1 - (nsuc : ℝ) / ntot) / ntot))) ∧
    ∃ ntot2 nsuc2 : ℕ, ∃ alpha2 : ℝ, 0 < ntot2 ∧ nsuc2 ≤ ntot2 ∧
      0 < alpha2 ∧ alpha2 < 1 ∧
      ((binomialCI fsolve normPPF ntot2 nsuc2 alpha2).2).1 < 0 := by
  constructor
  · have hp0 : (0 : ℝ) ≤ (nsuc : ℝ) / ntot :=
      div_nonneg (Nat.cast_nonneg nsuc) (Nat.cast_nonneg ntot)
    have hp1 : (nsuc : ℝ) / ntot ≤ 1 := by
      rw [div_le_one (by exact_mod_cast hn)]
      exact_mod_cast hsn
    have hpq : (0 : ℝ) ≤ (nsuc : ℝ) / ntot * (1 - (nsuc : ℝ) / ntot) :=
      mul_nonneg hp0 (by linarith)
    rw [binomialCI_clt, Real.sqrt_div hpq]
    refine Prod.ext ?_ ?_
    · show _ = _
      ring
    · show _ = _
      ring
  · obtain ⟨a, ha0, ha1, haz⟩ := hz
    set z : ℝ := -normPPF (a / 2) with hzdef
    have hz1 : 1 < z := haz
    have hz2 : 1 < z ^ 2 := by nlinarith
    set N : ℕ := ⌈z ^ 2 / (z ^ 2 - 1)⌉₊ + 1 with hNdef
    have hNbig : z ^ 2 / (z ^ 2 - 1) < (N : ℝ) := by
      have h1 : z ^ 2 / (z ^ 2 - 1) ≤ (⌈z ^ 2 / (z ^ 2 - 1)⌉₊ : ℝ) := Nat.le_ceil _
      have h2 : ((⌈z ^ 2 / (z ^ 2 - 1)⌉₊ : ℕ) : ℝ) < (N : ℝ) := by
        exact_mod_cast Nat.lt_succ_self _
      linarith
    have hN2 : 2 ≤ N := by
      have h1 : (1 : ℝ) < z ^ 2 / (z ^ 2 - 1) := by
        rw [lt_div_iff (by linarith)]
        nlinarith
      have h2 : (1 : ℝ) < (⌈z ^ 2 / (z ^ 2 - 1)⌉₊ : ℝ) := lt_of_lt_of_le h1 (Nat.le_ceil _)
      have h3 : 1 < ⌈z ^ 2 / (z ^ 2 - 1)⌉₊ := by exact_mod_cast h2
      omega
    have hNpos : 0 < N := by omega
    have hNR : (0 : ℝ) < (N : ℝ) := by exact_mod_cast hNpos
    have hkey : (N : ℝ) < z ^ 2 * ((N : ℝ) - 1) := by
      rw [div_lt_iff (by linarith)] at hNbig
      nlinarith
    refine ⟨N, 1, a, hNpos, by omega, ha0, ha1, ?_⟩
    have hNinv : (0 : ℝ) < 1 / (N : ℝ) := by positivity
    have harg : (0 : ℝ) < 1 / (N : ℝ) * (1 - 1 / (N : ℝ)) := by
      have h1N : 1 / (N : ℝ) < 1 := by
        rw [div_lt_one hNR]
        exact_mod_cast hN2
      have := hNinv
      nlinarith
    set s : ℝ := Real.sqrt (1 / (N : ℝ) * (1 - 1 / (N : ℝ))) with hsdef
    have hs2 : s ^ 2 = 1 / (N : ℝ) * (1 - 1 / (N : ℝ)) := Real.sq_sqrt harg.le
    have hspos : 0 < s := Real.sqrt_pos.mpr harg
    have hBpos : 0 < Real.sqrt (N : ℝ) := Real.sqrt_pos.mpr hNR
    have hB2 : Real.sqrt (N : ℝ) ^ 2 = (N : ℝ) := Real.sq_sqrt hNR.le
    have hzs : 0 < z * s * (N : ℝ) := by positivity
    have hsqlt : Real.sqrt (N : ℝ) < z * s * (N : ℝ) := by
      rw [Real.sqrt_lt' hzs]
      have hNne : (N : ℝ) ≠ 0 := ne_of_gt hNR
      have hexp : (z * s * (N : ℝ)) ^ 2 = z ^ 2 * ((N : ℝ) - 1) := by
        have h2 : (1 - 1 / (N : ℝ)) * (N : ℝ) = (N : ℝ) - 1 := by
          rw [sub_mul, one_mul, one_div, inv_mul_cancel₀ hNne]
        calc (z * s * (N : ℝ)) ^ 2
            = z ^ 2 * (s ^ 2 * (N : ℝ) ^ 2) := by ring
          _ = z ^ 2 * ((N : ℝ) * (1 / (N : ℝ)) * ((1 - 1 / (N : ℝ)) * (N : ℝ))) := by
              rw [hs2]
              ring
          _ = z ^ 2 * ((N : ℝ) - 1) := by
              rw [mul_one_div, div_self hNne, h2, one_mul]
      rw [hexp]
      exact hkey
    have hmain : 1 / (N : ℝ) < z * s / Real.sqrt (N : ℝ) := by
      rw [div_lt_div_iff hNR hBpos]
      linarith
    rw [binomialCI_clt]
    show ((1 : ℕ) : ℝ) / (N : ℝ) + (-1) * (-normPPF (a / 2) *
      Real.sqrt (((1 : ℕ) : ℝ) / (N : ℝ) * (1 - ((1 : ℕ) : ℝ) / (N : ℝ))) /
        Real.sqrt (N : ℝ)) < 0
    rw [Nat.cast_one, ← hzdef]
    rw [← hsdef]
    linarith

theorem claim_C6_witness :
    ((binomialCI (fun _ _ => 0) (fun _ => -2) 10 5 (1 / 2)).2 =
      (((5 : ℕ) : ℝ) / ((10 : ℕ) : ℝ) - -(-2 : ℝ) *
          Real.sqrt (((5 : ℕ) : ℝ) / ((10 : ℕ) : ℝ) *
            (1 - ((5 : ℕ) : ℝ) / ((10 : ℕ) : ℝ)) / ((10 : ℕ) : ℝ)),
       ((5 : ℕ) : ℝ) / ((10 : ℕ) : ℝ) + -(-2 : ℝ) *
          Real.sqrt (((5 : ℕ) : ℝ) / ((10 : ℕ) : ℝ) *
            (1 - ((5 : ℕ) : ℝ) / ((10 : ℕ) : ℝ)) / ((10 : ℕ) : ℝ)))) ∧
    ∃ ntot2 nsuc2 : ℕ, ∃ alpha2 : ℝ, 0 < ntot2 ∧ nsuc2 ≤ ntot2 ∧
      0 < alpha2 ∧ alpha2 < 1 ∧
      ((binomialCI (fun _ _ => 0) (fun _ => -2) ntot2 nsuc2 alpha2).2).1 < 0 :=
  claim_C6 (fun _ _ => 0) (fun _ => -2) 10 5 (1 / 2) (by norm_num) (by norm_num)
    ⟨1 / 2, by norm_num, by norm_num, by norm_num⟩

/-! ### Strict monotonicity of the binomial cdf in the success probability -/

theorem binomCDF_at_zero (k n : ℕ) : binomCDF k n 0 = 1 := by
  unfold binomCDF binomPMF
  rw [Finset.sum_eq_single_of_mem 0 (Finset.mem_range.mpr (Nat.succ_pos k))]
  · simp
  · intro j _ hj
    simp [zero_pow hj]

theorem binomCDF_at_one (k n : ℕ) (hk : k < n) : binomCDF k n 1 = 0 := by
  unfold binomCDF binomPMF
  refine Finset.sum_eq_zero ?_
  intro j hj
  have hjn : n - j ≠ 0 := by
    rw [Finset.mem_range] at hj
    omega
  simp [zero_pow hjn]

theorem hasDerivAt_binomCDF (n k : ℕ) (hk : k < n) (p : ℝ) :
    HasDerivAt (fun x => binomCDF k n x)
      (-((n : ℝ) * ((n - 1).choose k : ℝ) * p ^ k * (1 - p) ^ (n - 1 - k))) p := by
  induction k with
  | zero =>
    have hfun : (fun x => binomCDF 0 n x) = fun x => (1 - x) ^ n := by
      funext x
      rw [binomCDF_zero_k]
    rw [hfun]
    have h := ((hasDerivAt_id p).const_sub 1).pow n
    convert h using 1
    simp only [id_eq, Nat.choose_zero_right, Nat.cast_one, pow_zero, Nat.sub_zero]
    ring
  | succ k ih =>
    have hk1 : k < n := Nat.lt_of_succ_lt hk
    have hfun : (fun x => binomCDF (k + 1) n x) =
        fun x => binomCDF k n x + binomPMF n (k + 1) x := by
      funext x
      unfold binomCDF
      rw [Finset.sum_range_succ]
    have hfun2 : (fun x => binomPMF n (k + 1) x) =
        fun x => (n.choose (k + 1) : ℝ) * (x ^ (k + 1) * (1 - x) ^ (n - (k + 1))) := by
      funext x
      unfold binomPMF
      ring
    have h1 : HasDerivAt (fun x : ℝ => x ^ (k + 1)) (((k : ℝ) + 1) * p ^ k) p := by
      have := hasDerivAt_pow (k + 1) p
      simpa using this
    have h2 : HasDerivAt (fun x : ℝ => (1 - x) ^ (n - (k + 1)))
        (((n - (k + 1) : ℕ) : ℝ) * (1 - p) ^ (n - (k + 1) - 1) * (-1)) p :=
      ((hasDerivAt_id p).const_sub 1).pow (n - (k + 1))
    have hprod := (h1.mul h2).const_mul (n.choose (k + 1) : ℝ)
    have hpmf : HasDerivAt (fun x => binomPMF n (k + 1) x)
        ((n.choose (k + 1) : ℝ) *
          (((k : ℝ) + 1) * p ^ k * (1 - p) ^ (n - (k + 1)) +
            p ^ (k + 1) * (((n - (k + 1) : ℕ) : ℝ) * (1 - p) ^ (n - (k + 1) - 1) * (-1)))) p := by
      rw [hfun2]
      exact hprod
    have hsum := (ih hk1).add hpmf
    rw [hfun]
    convert hsum using 1
    have hn1 : n - 1 + 1 = n := by omega
    have hA : (n.choose (k + 1) : ℝ) * ((k : ℝ) + 1) = (n : ℝ) * ((n - 1).choose k : ℝ) := by
      have h3 := Nat.succ_mul_choose_eq (n - 1) k
      simp only [Nat.succ_eq_add_one] at h3
      rw [hn1] at h3
      exact_mod_cast h3.symm
    have hB : (n.choose (k + 1) : ℝ) * ((n - (k + 1) : ℕ) : ℝ) =
        (n : ℝ) * ((n - 1).choose (k + 1) : ℝ) := by
      have hc1 := Nat.choose_succ_right_eq n (k + 1)
      have hc2 := Nat.succ_mul_choose_eq (n - 1) (k + 1)
      simp only [Nat.succ_eq_add_one] at hc2
      rw [hn1] at hc2
      have h4 : n.choose (k + 1) * (n - (k + 1)) = n * (n - 1).choose (k + 1) :=
        hc1.symm.trans hc2.symm
      exact_mod_cast h4
    have he1 : n - 1 - k = n - (k + 1) := by omega
    have he2 : n - (k + 1) - 1 = n - 1 - (k + 1) := by omega
    rw [he1, he2]
    linear_combination (p ^ (k + 1) * (1 - p) ^ (n - 1 - (k + 1))) * hB -
      (p ^ k * (1 - p) ^ (n - (k + 1))) * hA

theorem binomCDF_strictAntiOn (n k : ℕ) (hk : k < n) :
    StrictAntiOn (fun p => binomCDF k n p) (Set.Icc (0 : ℝ) 1) := by
  apply strictAntiOn_of_deriv_neg (convex_Icc 0 1)
  · intro x _
    exact (hasDerivAt_binomCDF n k hk x).differentiableAt.continuousAt.continuousWithinAt
  · intro x hx
    rw [interior_Icc] at hx
    rw [(hasDerivAt_binomCDF n k hk x).deriv]
    have h1 : (0 : ℝ) < x ^ k := pow_pos hx.1 k
    have h2 : (0 : ℝ) < (1 - x) ^ (n - 1 - k) := pow_pos (by linarith [hx.2]) _
    have h3 : (0 : ℝ) < ((n - 1).choose k : ℝ) := by
      exact_mod_cast Nat.choose_pos (by omega)
    have h4 : (0 : ℝ) < (n : ℝ) := by
      exact_mod_cast Nat.pos_of_ne_zero (by omega)
    have h5 : (0 : ℝ) < (n : ℝ) * ((n - 1).choose k : ℝ) * x ^ k * (1 - x) ^ (n - 1 - k) := by
      positivity
    linarith

/-! ### Claim C3: characterisation of the exact Clopper-Pearson bounds -/

/-- Claim C3: under the root-solver contract (the solver returns a value in
the unit interval solving its equation, seeded at the observed proportion as
the code does), the exact lower bound of `binomialCI` is exactly `0` when
`nSuccess = 0` and otherwise is the unique `p` in `(0,1)` with
`BinomCDF(nSuccess - 1; nTotal, p) = 1 - alpha/2`; the exact upper bound is
exactly `1` when `nSuccess = nTotal` and otherwise the unique `p` in `(0,1)`
with `BinomCDF(nSuccess; nTotal, p) = alpha/2`.  Uniqueness holds because
the binomial cdf is strictly decreasing in `p` on the unit interval. -/
theorem claim_C3 (fsolve : (ℝ → ℝ) → ℝ → ℝ) (normPPF : ℝ → ℝ) (ntot nsuc : ℕ)
    (alpha : ℝ) (hn : 0 < ntot) (hsn : nsuc ≤ ntot) (ha0 : 0 < alpha) (ha1 : alpha < 1)
    (hlo : nsuc ≠ 0 →
      fsolve (fun x => binomCDF (nsuc - 1) ntot x - 1 + alpha / 2) ((nsuc : ℝ) / ntot)
          ∈ Set.Icc (0 : ℝ) 1 ∧
        binomCDF (nsuc - 1) ntot
          (fsolve (fun x => binomCDF (nsuc - 1) ntot x - 1 + alpha / 2) ((nsuc : ℝ) / ntot))
          = 1 - alpha / 2)
    (hup : nsuc ≠ ntot →
      fsolve (fun x => binomCDF nsuc ntot x - alpha / 2) ((nsuc : ℝ) / ntot)
          ∈ Set.Icc (0 : ℝ) 1 ∧
        binomCDF nsuc ntot
          (fsolve (fun x => binomCDF nsuc ntot x - alpha / 2) ((nsuc : ℝ) / ntot))
          = alpha / 2) :
    (nsuc = 0 → (binomialCI fsolve normPPF ntot nsuc alpha).1.1 = 0) ∧
    (nsuc ≠ 0 →
      (binomialCI fsolve normPPF ntot nsuc alpha).1.1
          = fsolve (fun x => binomCDF (nsuc - 1) ntot x - 1 + alpha / 2) ((nsuc : ℝ) / ntot) ∧
      (binomialCI fsolve normPPF ntot nsuc alpha).1.1 ∈ Set.Ioo (0 : ℝ) 1 ∧
      binomCDF (nsuc - 1) ntot ((binomialCI fsolve normPPF ntot nsuc alpha).1.1)
          = 1 - alpha / 2 ∧
      ∀ q ∈ Set.Ioo (0 : ℝ) 1, binomCDF (nsuc - 1) ntot q = 1 - alpha / 2 →
        q = (binomialCI fsolve normPPF ntot nsuc alpha).1.1) ∧
    (nsuc = ntot → (binomialCI fsolve normPPF ntot nsuc alpha).1.2 = 1) ∧
    (nsuc ≠ ntot →
      (binomialCI fsolve normPPF ntot nsuc alpha).1.2
          = fsolve (fun x => binomCDF nsuc ntot x - alpha / 2) ((nsuc : ℝ) / ntot) ∧
      (binomialCI fsolve normPPF ntot nsuc alpha).1.2 ∈ Set.Ioo (0 : ℝ) 1 ∧
      binomCDF nsuc ntot ((binomialCI fsolve normPPF ntot nsuc alpha).1.2) = alpha / 2 ∧
      ∀ q ∈ Set.Ioo (0 : ℝ) 1, binomCDF nsuc ntot q = alpha / 2 →
        q = (binomialCI fsolve normPPF ntot nsuc alpha).1.2) := by
  refine ⟨?_, ?_, ?_, ?_⟩
  · intro h0
    subst h0
    exact binomialCI_plo_zero fsolve normPPF ntot alpha
  · intro h0
    obtain ⟨hmem, hroot⟩ := hlo h0
    have heq := binomialCI_plo_solver fsolve normPPF ntot nsuc alpha h0
    rw [heq]
    have hklt : nsuc - 1 < ntot := by omega
    have hne0 : fsolve (fun x => binomCDF (nsuc - 1) ntot x - 1 + alpha / 2)
        ((nsuc : ℝ) / ntot) ≠ 0 := by
      intro hzero
      rw [hzero, binomCDF_at_zero] at hroot
      linarith
    have hne1 : fsolve (fun x => binomCDF (nsuc - 1) ntot x - 1 + alpha / 2)
        ((nsuc : ℝ) / ntot) ≠ 1 := by
      intro hone
      rw [hone, binomCDF_at_one _ _ hklt] at hroot
      linarith
    have hIoo : fsolve (fun x => binomCDF (nsuc - 1) ntot x - 1 + alpha / 2)
        ((nsuc : ℝ) / ntot) ∈ Set.Ioo (0 : ℝ) 1 := by
      rcases hmem with ⟨hm0, hm1⟩
      exact ⟨lt_of_le_of_ne hm0 (Ne.symm hne0), lt_of_le_of_ne hm1 hne1⟩
    refine ⟨rfl, hIoo, hroot, ?_⟩
    intro q hq hqroot
    have hinj := (binomCDF_strictAntiOn ntot (nsuc - 1) hklt).injOn
    exact hinj (Set.mem_Icc_of_Ioo hq) hmem (hqroot.trans hroot.symm)
  · intro h0
    subst h0
    exact binomialCI_pup_one fsolve normPPF nsuc alpha
  · intro h0
    obtain ⟨hmem, hroot⟩ := hup h0
    have heq := binomialCI_pup_solver fsolve normPPF ntot nsuc alpha h0
    rw [heq]
    have hklt : nsuc < ntot := lt_of_le_of_ne hsn h0
    have hne0 : fsolve (fun x => binomCDF nsuc ntot x - alpha / 2)
        ((nsuc : ℝ) / ntot) ≠ 0 := by
      intro hzero
      rw [hzero, binomCDF_at_zero] at hroot
      linarith
    have hne1 : fsolve (fun x => binomCDF nsuc ntot x - alpha / 2)
        ((nsuc : ℝ) / ntot) ≠ 1 := by
      intro hone
      rw [hone, binomCDF_at_one _ _ hklt] at hroot
      linarith
    have hIoo : fsolve (fun x => binomCDF nsuc ntot x - alpha / 2)
        ((nsuc : ℝ) / ntot) ∈ Set.Ioo (0 : ℝ) 1 := by
      rcases hmem with ⟨hm0, hm1⟩
      exact ⟨lt_of_le_of_ne hm0 (Ne.symm hne0), lt_of_le_of_ne hm1 hne1⟩
    refine ⟨rfl, hIoo, hroot, ?_⟩
    intro q hq hqroot
    have hinj := (binomCDF_strictAntiOn ntot nsuc hklt).injOn
    exact hinj (Set.mem_Icc_of_Ioo hq) hmem (hqroot.trans hroot.symm)

theorem claim_C3_witness :
    ((binomialCI (fun _ _ => 3 / 4) (fun _ => 0) 1 0 (1 / 2)).1.1 = 0) ∧
    ((binomialCI (fun _ _ => 3 / 4) (fun _ => 0) 1 0 (1 / 2)).1.2 ∈ Set.Ioo (0 : ℝ) 1 ∧
      binomCDF 0 1 ((binomialCI (fun _ _ => 3 / 4) (fun _ => 0) 1 0 (1 / 2)).1.2)
          = 1 / 2 / 2 ∧
      ∀ q ∈ Set.Ioo (0 : ℝ) 1, binomCDF 0 1 q = 1 / 2 / 2 →
        q = (binomialCI (fun _ _ => 3 / 4) (fun _ => 0) 1 0 (1 / 2)).1.2) := by
  have hup : (0 : ℕ) ≠ 1 →
      (fun _ _ => (3 : ℝ) / 4) (fun x => binomCDF 0 1 x - 1 / 2 / 2)
          (((0 : ℕ) : ℝ) / ((1 : ℕ) : ℝ)) ∈ Set.Icc (0 : ℝ) 1 ∧
        binomCDF 0 1 ((fun _ _ => (3 : ℝ) / 4) (fun x => binomCDF 0 1 x - 1 / 2 / 2)
          (((0 : ℕ) : ℝ) / ((1 : ℕ) : ℝ))) = 1 / 2 / 2 := by
    intro h
    constructor
    · show (3 / 4 : ℝ) ∈ Set.Icc (0 : ℝ) 1
      rw [Set.mem_Icc]
      norm_num
    · show binomCDF 0 1 (3 / 4) = 1 / 2 / 2
      rw [binomCDF_zero_k]
      norm_num
  have h := claim_C3 (fun _ _ => 3 / 4) (fun _ => 0) 1 0 (1 / 2) (by norm_num) (by norm_num)
    (by norm_num) (by norm_num) (fun h0 => absurd rfl h0) hup
  exact ⟨h.1 rfl, (h.2.2.2 (by norm_num)).2.1, (h.2.2.2 (by norm_num)).2.2.1,
    (h.2.2.2 (by norm_num)).2.2.2⟩

/-! ### The binomial mean-median inequality

The remaining content of claim C8 (`lo ≤ obsProb ≤ hi`) is the classical
fact that an integer-mean binomial variable has its mean as a median:
`P(Bin(n, k/n) ≤ k) ≥ 1/2` and `P(Bin(n, m/n) ≤ m - 1) ≤ 1/2`.  It is
proved below through the beta-integral representation of the binomial cdf:
a reflection pairing `t = a ± s` settles the left-of-centre case and a
Moebius-substitution pairing settles the right-of-centre case, with the
complement identity exchanging the two. -/

theorem binomPMF_symm (n j : ℕ) (hj : j ≤ n) (p : ℝ) :
    binomPMF n j (1 - p) = binomPMF n (n - j) p := by
  unfold binomPMF
  have h2 : n - (n - j) = j := by omega
  have h1 : (1 : ℝ) - (1 - p) = p := by ring
  rw [← Nat.choose_symm hj, h2, h1]
  ring

theorem binomCDF_complement (k n : ℕ) (hk : k < n) (p : ℝ) :
    binomCDF k n p + binomCDF (n - k - 1) n (1 - p) = 1 := by
  have hsplit : binomCDF n n p =
      binomCDF k n p + ∑ i ∈ Finset.range (n - k), binomPMF n (k + 1 + i) p := by
    unfold binomCDF
    rw [← Finset.sum_range_add_sum_Ico _ (by omega : k + 1 ≤ n + 1)]
    rw [Finset.sum_Ico_eq_sum_range]
    have heq : n + 1 - (k + 1) = n - k := by omega
    rw [heq]
  have hswap : binomCDF (n - k - 1) n (1 - p) =
      ∑ i ∈ Finset.range (n - k), binomPMF n (k + 1 + i) p := by
    unfold binomCDF
    have hnk : n - k - 1 + 1 = n - k := by omega
    rw [hnk]
    rw [← Finset.sum_range_reflect (fun i => binomPMF n (k + 1 + i) p) (n - k)]
    refine Finset.sum_congr rfl ?_
    intro j hj
    rw [Finset.mem_range] at hj
    have h1 : k + 1 + (n - k - 1 - j) = n - j := by omega
    rw [h1]
    exact binomPMF_symm n j (by omega) p
  rw [binomCDF_self] at hsplit
  rw [hswap]
  linarith

theorem binomCDF_sub_integral (k n : ℕ) (hk : k < n) (x y : ℝ) :
    ∫ t in x..y, ((n : ℝ) * ((n - 1).choose k : ℝ) * t ^ k * (1 - t) ^ (n - 1 - k)) =
      binomCDF k n x - binomCDF k n y := by
  have hder : ∀ t ∈ Set.uIcc x y, HasDerivAt (fun u => binomCDF k n u)
      (-((n : ℝ) * ((n - 1).choose k : ℝ) * t ^ k * (1 - t) ^ (n - 1 - k))) t :=
    fun t _ => hasDerivAt_binomCDF n k hk t
  have hcont : Continuous fun t : ℝ =>
      -((n : ℝ) * ((n - 1).choose k : ℝ) * t ^ k * (1 - t) ^ (n - 1 - k)) := by
    continuity
  have h := intervalIntegral.integral_eq_sub_of_hasDerivAt hder
    (hcont.intervalIntegrable x y)
  rw [intervalIntegral.integral_neg] at h
  linarith [h]

theorem refl_log_ineq (n k : ℕ) (hk1 : 1 ≤ k) (hk2 : 2 * k ≤ n) (σ : ℝ)
    (h0 : 0 ≤ σ) (hσ : σ < k) :
    ((n : ℝ) - 1 - k) * (Real.log ((n : ℝ) - k + σ) - Real.log ((n : ℝ) - k - σ)) ≤
      (k : ℝ) * (Real.log ((k : ℝ) + σ) - Real.log ((k : ℝ) - σ)) := by
  set K : ℝ := (k : ℝ) with hK
  set M : ℝ := (n : ℝ) - k with hM
  set L : ℝ := (n : ℝ) - 1 - k with hL
  have hKpos : 0 < K := by
    rw [hK]
    exact_mod_cast hk1
  have hKM : K ≤ M := by
    rw [hK, hM]
    have : (2 * k : ℝ) ≤ (n : ℝ) := by exact_mod_cast hk2
    linarith
  have hL1 : L = M - 1 := by
    rw [hL, hM]
    ring
  have hLM : L ≤ M := by linarith
  have hL0 : 0 ≤ L := by
    have : (1 : ℝ) ≤ K := by
      rw [hK]
      exact_mod_cast hk1
    linarith
  set Θ : ℝ → ℝ := fun t =>
    K * (Real.log (K + t) - Real.log (K - t)) -
      L * (Real.log (M + t) - Real.log (M - t)) with hΘ
  have hderiv : ∀ t ∈ Set.Icc 0 σ, HasDerivAt Θ
      (K * (1 / (K + t) + 1 / (K - t)) - L * (1 / (M + t) + 1 / (M - t))) t := by
    intro t ht
    rcases ht with ⟨ht0, htσ⟩
    have hKt : 0 < K - t := by linarith
    have hKt2 : 0 < K + t := by linarith
    have hMt : 0 < M - t := by linarith
    have hMt2 : 0 < M + t := by linarith
    have d1 : HasDerivAt (fun u : ℝ => Real.log (K + u)) (1 / (K + t)) t := by
      have h := ((hasDerivAt_id t).const_add K).log hKt2.ne'
      simpa using h
    have d2 : HasDerivAt (fun u : ℝ => Real.log (K - u)) (-1 / (K - t)) t := by
      have h := ((hasDerivAt_id t).const_sub K).log hKt.ne'
      simpa using h
    have d3 : HasDerivAt (fun u : ℝ => Real.log (M + u)) (1 / (M + t)) t := by
      have h := ((hasDerivAt_id t).const_add M).log hMt2.ne'
      simpa using h
    have d4 : HasDerivAt (fun u : ℝ => Real.log (M - u)) (-1 / (M - t)) t := by
      have h := ((hasDerivAt_id t).const_sub M).log hMt.ne'
      simpa using h
    have hcomb := ((d1.sub d2).const_mul K).sub ((d3.sub d4).const_mul L)
    convert hcomb using 1
    ring
  have hcont : ContinuousOn Θ (Set.Icc 0 σ) :=
    fun t ht => ((hderiv t ht).continuousAt).continuousWithinAt
  have hmono : MonotoneOn Θ (Set.Icc 0 σ) := by
    apply monotoneOn_of_deriv_nonneg (convex_Icc 0 σ) hcont
    · intro t ht
      rw [interior_Icc] at ht
      exact ((hderiv t (Set.mem_Icc_of_Ioo ht)).differentiableAt).differentiableWithinAt
    · intro t ht
      rw [interior_Icc] at ht
      rcases ht with ⟨ht0, htσ⟩
      have hKt : 0 < K - t := by linarith
      have hKt2 : 0 < K + t := by linarith
      have hMt : 0 < M - t := by linarith
      have hMt2 : 0 < M + t := by linarith
      rw [(hderiv t ⟨le_of_lt ht0, le_of_lt htσ⟩).deriv]
      have hsum1 : 1 / (K + t) + 1 / (K - t) = 2 * K / ((K + t) * (K - t)) := by
        field_simp
        ring
      have hsum2 : 1 / (M + t) + 1 / (M - t) = 2 * M / ((M + t) * (M - t)) := by
        field_simp
        ring
      rw [hsum1, hsum2]
      rw [sub_nonneg, ← mul_div_assoc, ← mul_div_assoc,
        div_le_div_iff (by positivity) (by positivity)]
      have hM0 : (0 : ℝ) ≤ M := by linarith
      have h4 : 0 ≤ K * K - t * t := by nlinarith
      have e1 : 0 ≤ (K * K - t * t) * (M * M - L * M) := by
        have : 0 ≤ M * M - L * M := by nlinarith
        exact mul_nonneg h4 this
      have e2 : 0 ≤ t * t * (M * M - K * K) := by
        have : 0 ≤ M * M - K * K := by nlinarith
        exact mul_nonneg (mul_self_nonneg t) this
      nlinarith [e1, e2]
  have h0mem : (0 : ℝ) ∈ Set.Icc (0 : ℝ) σ := ⟨le_rfl, h0⟩
  have hσmem : σ ∈ Set.Icc (0 : ℝ) σ := ⟨h0, le_rfl⟩
  have hΘ0 : Θ 0 = 0 := by
    rw [hΘ]
    simp
  have hfin := hmono h0mem hσmem h0
  rw [hΘ0] at hfin
  have hΘσ : Θ σ = K * (Real.log (K + σ) - Real.log (K - σ)) -
      L * (Real.log (M + σ) - Real.log (M - σ)) := rfl
  rw [hΘσ] at hfin
  linarith

theorem refl_pointwise (n k : ℕ) (hk1 : 1 ≤ k) (hk2 : 2 * k ≤ n) (s : ℝ)
    (hs0 : 0 ≤ s) (hsa : s ≤ (k : ℝ) / n) :
    ((k : ℝ) / n - s) ^ k * (1 - ((k : ℝ) / n - s)) ^ (n - 1 - k) ≤
      ((k : ℝ) / n + s) ^ k * (1 - ((k : ℝ) / n + s)) ^ (n - 1 - k) := by
  have hn2 : 2 ≤ n := by omega
  have hN : (0 : ℝ) < (n : ℝ) := by exact_mod_cast (by omega : 0 < n)
  have hKpos : (0 : ℝ) < (k : ℝ) := by exact_mod_cast hk1
  have h2a : 2 * ((k : ℝ) / n) ≤ 1 := by
    rw [← mul_div_assoc, div_le_one hN]
    exact_mod_cast hk2
  rcases eq_or_lt_of_le hsa with heq | hlt
  · subst heq
    have hzero : ((k : ℝ) / n - (k : ℝ) / n) ^ k = 0 := by
      rw [sub_self]
      exact zero_pow (by omega)
    rw [hzero, zero_mul]
    apply mul_nonneg
    · positivity
    · apply pow_nonneg
      have : (k : ℝ) / n + (k : ℝ) / n = 2 * ((k : ℝ) / n) := by ring
      linarith
  · set σ : ℝ := (n : ℝ) * s with hσdef
    have hσ0 : 0 ≤ σ := by positivity
    have hσK : σ < (k : ℝ) := by
      rw [hσdef]
      calc (n : ℝ) * s < (n : ℝ) * ((k : ℝ) / n) := by
            exact mul_lt_mul_of_pos_left hlt hN
        _ = (k : ℝ) := by field_simp
    have hKM : (k : ℝ) ≤ (n : ℝ) - k := by
      have : (2 * k : ℝ) ≤ (n : ℝ) := by exact_mod_cast hk2
      linarith
    have e1 : (k : ℝ) / n - s = ((k : ℝ) - σ) / n := by
      rw [hσdef]
      field_simp
    have e2 : (k : ℝ) / n + s = ((k : ℝ) + σ) / n := by
      rw [hσdef]
      field_simp
      ring
    have e3 : 1 - ((k : ℝ) / n - s) = (((n : ℝ) - k) + σ) / n := by
      rw [hσdef]
      field_simp
      ring
    have e4 : 1 - ((k : ℝ) / n + s) = (((n : ℝ) - k) - σ) / n := by
      rw [hσdef]
      field_simp
      ring
    have hKσ1 : (0 : ℝ) < (k : ℝ) - σ := by linarith
    have hKσ2 : (0 : ℝ) < (k : ℝ) + σ := by linarith
    have hMσ1 : (0 : ℝ) < ((n : ℝ) - k) - σ := by linarith
    have hMσ2 : (0 : ℝ) < ((n : ℝ) - k) + σ := by linarith
    rw [e3, e4, e1, e2, div_pow, div_pow, div_pow, div_pow]
    rw [div_mul_div_comm, div_mul_div_comm]
    rw [div_le_div_iff (by positivity) (by positivity)]
    apply mul_le_mul_of_nonneg_right ?_ (by positivity)
    have hlogs := refl_log_ineq n k hk1 hk2 σ hσ0 hσK
    have hlhs : (0 : ℝ) < ((k : ℝ) - σ) ^ k * (((n : ℝ) - k) + σ) ^ (n - 1 - k) := by
      positivity
    have hrhs : (0 : ℝ) < ((k : ℝ) + σ) ^ k * (((n : ℝ) - k) - σ) ^ (n - 1 - k) := by
      positivity
    rw [← Real.log_le_log_iff hlhs hrhs]
    rw [Real.log_mul (by positivity) (by positivity),
      Real.log_mul (by positivity) (by positivity),
      Real.log_pow, Real.log_pow, Real.log_pow, Real.log_pow]
    have hcast : ((n - 1 - k : ℕ) : ℝ) = (n : ℝ) - 1 - k := by
      have hkn : 1 + k ≤ n := by omega
      have h1 : n - 1 - k = n - (1 + k) := by omega
      rw [h1, Nat.cast_sub hkn]
      push_cast
      ring
    rw [hcast]
    nlinarith [hlogs]

theorem reflection_integral_le (n k : ℕ) (hk1 : 1 ≤ k) (hk2 : 2 * k ≤ n) :
    ∫ t in (0 : ℝ)..((k : ℝ) / n), t ^ k * (1 - t) ^ (n - 1 - k) ≤
      ∫ t in ((k : ℝ) / n)..1, t ^ k * (1 - t) ^ (n - 1 - k) := by
  have hN : (0 : ℝ) < (n : ℝ) := by exact_mod_cast (by omega : 0 < n)
  have ha0 : (0 : ℝ) ≤ (k : ℝ) / n := by positivity
  have h2a : 2 * ((k : ℝ) / n) ≤ 1 := by
    rw [← mul_div_assoc, div_le_one hN]
    exact_mod_cast hk2
  have hcont : Continuous fun t : ℝ => t ^ k * (1 - t) ^ (n - 1 - k) := by continuity
  have hcont1 : Continuous fun s : ℝ =>
      ((k : ℝ) / n - s) ^ k * (1 - ((k : ℝ) / n - s)) ^ (n - 1 - k) := by continuity
  have hcont2 : Continuous fun s : ℝ =>
      ((k : ℝ) / n + s) ^ k * (1 - ((k : ℝ) / n + s)) ^ (n - 1 - k) := by continuity
  have h1 : (∫ s in (0 : ℝ)..((k : ℝ) / n),
      ((k : ℝ) / n - s) ^ k * (1 - ((k : ℝ) / n - s)) ^ (n - 1 - k)) =
      ∫ t in (0 : ℝ)..((k : ℝ) / n), t ^ k * (1 - t) ^ (n - 1 - k) := by
    rw [intervalIntegral.integral_comp_sub_left
      (fun t => t ^ k * (1 - t) ^ (n - 1 - k)) ((k : ℝ) / n)]
    norm_num
  have h2 : (∫ s in (0 : ℝ)..((k : ℝ) / n),
      ((k : ℝ) / n + s) ^ k * (1 - ((k : ℝ) / n + s)) ^ (n - 1 - k)) =
      ∫ t in ((k : ℝ) / n)..((k : ℝ) / n + (k : ℝ) / n), t ^ k * (1 - t) ^ (n - 1 - k) := by
    rw [intervalIntegral.integral_comp_add_left
      (fun t => t ^ k * (1 - t) ^ (n - 1 - k)) ((k : ℝ) / n)]
    norm_num
  have hmono : (∫ s in (0 : ℝ)..((k : ℝ) / n),
      ((k : ℝ) / n - s) ^ k * (1 - ((k : ℝ) / n - s)) ^ (n - 1 - k)) ≤
      ∫ s in (0 : ℝ)..((k : ℝ) / n),
      ((k : ℝ) / n + s) ^ k * (1 - ((k : ℝ) / n + s)) ^ (n - 1 - k) := by
    apply intervalIntegral.integral_mono_on ha0
      (hcont1.intervalIntegrable _ _) (hcont2.intervalIntegrable _ _)
    intro s hs
    exact refl_pointwise n k hk1 hk2 s hs.1 hs.2
  have hadj : (∫ t in ((k : ℝ) / n)..((k : ℝ) / n + (k : ℝ) / n),
        t ^ k * (1 - t) ^ (n - 1 - k)) +
      (∫ t in ((k : ℝ) / n + (k : ℝ) / n)..1, t ^ k * (1 - t) ^ (n - 1 - k)) =
      ∫ t in ((k : ℝ) / n)..1, t ^ k * (1 - t) ^ (n - 1 - k) :=
    intervalIntegral.integral_add_adjacent_intervals
      (hcont.intervalIntegrable _ _) (hcont.intervalIntegrable _ _)
  have htail : 0 ≤ ∫ t in ((k : ℝ) / n + (k : ℝ) / n)..1,
      t ^ k * (1 - t) ^ (n - 1 - k) := by
    apply intervalIntegral.integral_nonneg (by linarith)
    intro u hu
    have hu0 : 0 ≤ u := by linarith [hu.1, ha0]
    have hu1 : 0 ≤ 1 - u := by linarith [hu.2]
    exact mul_nonneg (pow_nonneg hu0 _) (pow_nonneg hu1 _)
  linarith

theorem binomCDF_ge_half (n k : ℕ) (hk1 : 1 ≤ k) (hk2 : 2 * k ≤ n) :
    1 / 2 ≤ binomCDF k n ((k : ℝ) / n) := by
  have hkn : k < n := by omega
  have hchoose : (0 : ℝ) < ((n - 1).choose k : ℝ) := by
    exact_mod_cast Nat.choose_pos (by omega)
  have hc : (0 : ℝ) < (n : ℝ) * ((n - 1).choose k : ℝ) := by
    have : (0 : ℝ) < (n : ℝ) := by exact_mod_cast (by omega : 0 < n)
    positivity
  have hrw : ∀ x y : ℝ,
      (∫ t in x..y, ((n : ℝ) * ((n - 1).choose k : ℝ) * t ^ k * (1 - t) ^ (n - 1 - k))) =
      (n : ℝ) * ((n - 1).choose k : ℝ) * ∫ t in x..y, t ^ k * (1 - t) ^ (n - 1 - k) := by
    intro x y
    rw [← intervalIntegral.integral_const_mul]
    apply intervalIntegral.integral_congr
    intro t _
    ring
  have h1 := binomCDF_sub_integral k n hkn 0 ((k : ℝ) / n)
  have h2 := binomCDF_sub_integral k n hkn ((k : ℝ) / n) 1
  rw [binomCDF_at_zero, hrw] at h1
  rw [binomCDF_at_one k n hkn, hrw] at h2
  have hre := reflection_integral_le n k hk1 hk2
  nlinarith [mul_le_mul_of_nonneg_left hre hc.le]

theorem mobius_log_deriv_nonpos (n m : ℕ) (hm1 : 1 ≤ m) (hmn : m < n)
    (hm2 : 2 * m ≤ n + 1) (t : ℝ) (ht0 : 0 < t) (ht1 : t ≤ 1) :
    ((n : ℝ) + 1) * (((n : ℝ) - m) / (((n : ℝ) - m) * t + m)) -
      ((n + 1 - 2 * m : ℕ) : ℝ) / t -
      ((n : ℝ) + 1) * ((m : ℝ) / (((n : ℝ) - m) + m * t)) ≤ 0 := by
  have hM1 : (1 : ℝ) ≤ (m : ℝ) := by exact_mod_cast hm1
  have hB0 : (0 : ℝ) < (n : ℝ) - m := by
    have : (m : ℝ) < (n : ℝ) := by exact_mod_cast hmn
    linarith
  have hc : ((n + 1 - 2 * m : ℕ) : ℝ) = (n : ℝ) + 1 - 2 * m := by
    rw [Nat.cast_sub hm2]
    push_cast
    ring
  have hd1 : (0 : ℝ) < ((n : ℝ) - m) * t + m := by nlinarith
  have hd2 : (0 : ℝ) < ((n : ℝ) - m) + m * t := by nlinarith
  have hval : ((n : ℝ) + 1) * (((n : ℝ) - m) / (((n : ℝ) - m) * t + m)) -
      ((n + 1 - 2 * m : ℕ) : ℝ) / t -
      ((n : ℝ) + 1) * ((m : ℝ) / (((n : ℝ) - m) + m * t)) =
      (-(2 * (m : ℝ) * t * (((n : ℝ) - m) + m)) -
        ((n : ℝ) + 1 - 2 * m) * ((n : ℝ) - m) * m * (1 - t) ^ 2) /
        (t * ((((n : ℝ) - m) * t + m) * (((n : ℝ) - m) + m * t))) := by
    rw [hc]
    field_simp
    ring
  rw [hval]
  apply div_nonpos_of_nonpos_of_nonneg
  · have hc0 : (0 : ℝ) ≤ (n : ℝ) + 1 - 2 * m := by
      have : (2 * m : ℝ) ≤ (n : ℝ) + 1 := by exact_mod_cast hm2
      linarith
    have e1 : (0 : ℝ) ≤ 2 * (m : ℝ) * t * (((n : ℝ) - m) + m) := by
      have : (0 : ℝ) ≤ ((n : ℝ) - m) + m := by linarith
      positivity
    have e2 : (0 : ℝ) ≤ ((n : ℝ) + 1 - 2 * m) * ((n : ℝ) - m) * m * (1 - t) ^ 2 := by
      apply mul_nonneg
      · apply mul_nonneg
        · exact mul_nonneg hc0 hB0.le
        · linarith
      · exact sq_nonneg _
    linarith
  · have : (0 : ℝ) ≤ (((n : ℝ) - m) * t + m) * (((n : ℝ) - m) + m * t) := by positivity
    positivity

theorem mobius_poly_ineq (n m : ℕ) (hm1 : 1 ≤ m) (hmn : m < n) (hm2 : 2 * m ≤ n + 1)
    (w : ℝ) (hw0 : 0 < w) (hw1 : w ≤ 1) :
    w ^ (n + 1 - 2 * m) * (((n : ℝ) - m) + m * w) ^ (n + 1) ≤
      (((n : ℝ) - m) * w + m) ^ (n + 1) := by
  have hM1 : (1 : ℝ) ≤ (m : ℝ) := by exact_mod_cast hm1
  have hB0 : (0 : ℝ) < (n : ℝ) - m := by
    have : (m : ℝ) < (n : ℝ) := by exact_mod_cast hmn
    linarith
  have hder : ∀ u : ℝ, 0 < u → HasDerivAt (fun x : ℝ =>
      ((n : ℝ) + 1) * Real.log (((n : ℝ) - m) * x + m) -
        ((n + 1 - 2 * m : ℕ) : ℝ) * Real.log x -
        ((n : ℝ) + 1) * Real.log (((n : ℝ) - m) + m * x))
      (((n : ℝ) + 1) * (((n : ℝ) - m) / (((n : ℝ) - m) * u + m)) -
        ((n + 1 - 2 * m : ℕ) : ℝ) / u -
        ((n : ℝ) + 1) * ((m : ℝ) / (((n : ℝ) - m) + m * u))) u := by
    intro u hu
    have hd1 : (0 : ℝ) < ((n : ℝ) - m) * u + m := by nlinarith
    have hd2 : (0 : ℝ) < ((n : ℝ) - m) + m * u := by nlinarith
    have du1 : HasDerivAt (fun x : ℝ => ((n : ℝ) - m) * x + m) ((n : ℝ) - m) u := by
      simpa using ((hasDerivAt_id u).const_mul ((n : ℝ) - m)).add_const (m : ℝ)
    have du3 : HasDerivAt (fun x : ℝ => ((n : ℝ) - m) + m * x) (m : ℝ) u := by
      simpa using (((hasDerivAt_id u).const_mul (m : ℝ)).const_add ((n : ℝ) - m))
    have d1 := (du1.log hd1.ne').const_mul ((n : ℝ) + 1)
    have d2 := (Real.hasDerivAt_log hu.ne').const_mul ((n + 1 - 2 * m : ℕ) : ℝ)
    have d3 := (du3.log hd2.ne').const_mul ((n : ℝ) + 1)
    have hcomb := (d1.sub d2).sub d3
    convert hcomb using 1
  have hanti : AntitoneOn (fun x : ℝ =>
      ((n : ℝ) + 1) * Real.log (((n : ℝ) - m) * x + m) -
        ((n + 1 - 2 * m : ℕ) : ℝ) * Real.log x -
        ((n : ℝ) + 1) * Real.log (((n : ℝ) - m) + m * x)) (Set.Icc w 1) := by
    apply antitoneOn_of_deriv_nonpos (convex_Icc w 1)
    · intro u hu
      exact ((hder u (lt_of_lt_of_le hw0 hu.1)).continuousAt).continuousWithinAt
    · intro u hu
      rw [interior_Icc] at hu
      exact ((hder u (lt_trans hw0 hu.1)).differentiableAt).differentiableWithinAt
    · intro u hu
      rw [interior_Icc] at hu
      have hu0 : 0 < u := lt_trans hw0 hu.1
      rw [(hder u hu0).deriv]
      exact mobius_log_deriv_nonpos n m hm1 hmn hm2 u hu0 hu.2.le
  have h1 : (fun x : ℝ =>
      ((n : ℝ) + 1) * Real.log (((n : ℝ) - m) * x + m) -
        ((n + 1 - 2 * m : ℕ) : ℝ) * Real.log x -
        ((n : ℝ) + 1) * Real.log (((n : ℝ) - m) + m * x)) 1 = 0 := by
    simp only [mul_one, Real.log_one, mul_zero, sub_zero]
    ring
  have hw1mem : w ∈ Set.Icc w 1 := ⟨le_rfl, hw1⟩
  have h1mem : (1 : ℝ) ∈ Set.Icc w 1 := ⟨hw1, le_rfl⟩
  have hge := hanti hw1mem h1mem hw1
  rw [h1] at hge
  have hd1 : (0 : ℝ) < ((n : ℝ) - m) * w + m := by nlinarith
  have hd2 : (0 : ℝ) < ((n : ℝ) - m) + m * w := by nlinarith
  have hYpos : (0 : ℝ) < w ^ (n + 1 - 2 * m) * (((n : ℝ) - m) + m * w) ^ (n + 1) := by
    positivity
  have hXpos : (0 : ℝ) < (((n : ℝ) - m) * w + m) ^ (n + 1) := by positivity
  rw [← Real.log_le_log_iff hYpos hXpos]
  rw [Real.log_mul (by positivity) (by positivity), Real.log_pow, Real.log_pow,
    Real.log_pow]
  simp only at hge
  push_cast at hge ⊢
  linarith [hge]

theorem mobius_pointwise (n m : ℕ) (hm1 : 1 ≤ m) (hmn : m < n) (hm2 : 2 * m ≤ n + 1)
    (w : ℝ) (hw0 : 0 ≤ w) (hw1 : w ≤ 1) :
    (m : ℝ) * ((n : ℝ) - m) / (((n : ℝ) - m) * w + m) ^ 2 *
        (((m : ℝ) / (((n : ℝ) - m) * w + m)) ^ (m - 1) *
          (1 - (m : ℝ) / (((n : ℝ) - m) * w + m)) ^ (n - m)) ≤
      (m : ℝ) * ((n : ℝ) - m) / (((n : ℝ) - m) + (m : ℝ) * w) ^ 2 *
        (((m : ℝ) * w / (((n : ℝ) - m) + (m : ℝ) * w)) ^ (m - 1) *
          (1 - (m : ℝ) * w / (((n : ℝ) - m) + (m : ℝ) * w)) ^ (n - m)) := by
  have hM0 : (0 : ℝ) < (m : ℝ) := by exact_mod_cast hm1
  have hB0 : (0 : ℝ) < (n : ℝ) - m := by
    have : (m : ℝ) < (n : ℝ) := by exact_mod_cast hmn
    linarith
  rcases eq_or_lt_of_le hw0 with hw | hw
  · rw [← hw]
    have hnm : n - m ≠ 0 := by omega
    simp only [mul_zero, zero_add, add_zero, zero_div, div_self hM0.ne', sub_self, sub_zero,
      one_pow, one_mul, mul_one, zero_pow hnm]
    exact mul_nonneg (div_nonneg (mul_nonneg hM0.le hB0.le) (sq_nonneg _))
      (pow_nonneg le_rfl _)
  · obtain ⟨a, rfl⟩ : ∃ a, m = a + 1 := ⟨m - 1, by omega⟩
    obtain ⟨b, rfl⟩ : ∃ b, n = a + 1 + b + 1 := ⟨n - a - 2, by omega⟩
    have hea : a + 1 - 1 = a := by omega
    have heb : a + 1 + b + 1 - (a + 1) = b + 1 := by omega
    simp only [hea, heb]
    have hBcast : ((a + 1 + b + 1 : ℕ) : ℝ) - ((a + 1 : ℕ) : ℝ) = ((b + 1 : ℕ) : ℝ) := by
      push_cast
      ring
    rw [hBcast]
    have hMa : (0 : ℝ) < ((a + 1 : ℕ) : ℝ) := by exact_mod_cast Nat.succ_pos a
    have hBb : (0 : ℝ) < ((b + 1 : ℕ) : ℝ) := by exact_mod_cast Nat.succ_pos b
    have hX : (0 : ℝ) < ((b + 1 : ℕ) : ℝ) * w + ((a + 1 : ℕ) : ℝ) := by
      have := mul_nonneg hBb.le hw0
      linarith
    have hY : (0 : ℝ) < ((b + 1 : ℕ) : ℝ) + ((a + 1 : ℕ) : ℝ) * w := by
      have := mul_nonneg hMa.le hw0
      linarith
    have hX' := hX.ne'
    have hY' := hY.ne'
    have e1 : 1 - ((a + 1 : ℕ) : ℝ) / (((b + 1 : ℕ) : ℝ) * w + ((a + 1 : ℕ) : ℝ)) =
        ((b + 1 : ℕ) : ℝ) * w / (((b + 1 : ℕ) : ℝ) * w + ((a + 1 : ℕ) : ℝ)) := by
      field_simp
    have e2 : 1 - ((a + 1 : ℕ) : ℝ) * w / (((b + 1 : ℕ) : ℝ) + ((a + 1 : ℕ) : ℝ) * w) =
        ((b + 1 : ℕ) : ℝ) / (((b + 1 : ℕ) : ℝ) + ((a + 1 : ℕ) : ℝ) * w) := by
      field_simp
    rw [e1, e2]
    have hL : ((a + 1 : ℕ) : ℝ) * ((b + 1 : ℕ) : ℝ) /
          (((b + 1 : ℕ) : ℝ) * w + ((a + 1 : ℕ) : ℝ)) ^ 2 *
          ((((a + 1 : ℕ) : ℝ) / (((b + 1 : ℕ) : ℝ) * w + ((a + 1 : ℕ) : ℝ))) ^ a *
            (((b + 1 : ℕ) : ℝ) * w / (((b + 1 : ℕ) : ℝ) * w + ((a + 1 : ℕ) : ℝ))) ^ (b + 1)) =
        ((a + 1 : ℕ) : ℝ) ^ (a + 1) * ((b + 1 : ℕ) : ℝ) ^ (b + 2) * w ^ (b + 1) /
          (((b + 1 : ℕ) : ℝ) * w + ((a + 1 : ℕ) : ℝ)) ^ (a + b + 3) := by
      rw [div_pow, div_pow, mul_pow]
      field_simp
      ring
    have hR : ((a + 1 : ℕ) : ℝ) * ((b + 1 : ℕ) : ℝ) /
          (((b + 1 : ℕ) : ℝ) + ((a + 1 : ℕ) : ℝ) * w) ^ 2 *
          ((((a + 1 : ℕ) : ℝ) * w / (((b + 1 : ℕ) : ℝ) + ((a + 1 : ℕ) : ℝ) * w)) ^ a *
            (((b + 1 : ℕ) : ℝ) / (((b + 1 : ℕ) : ℝ) + ((a + 1 : ℕ) : ℝ) * w)) ^ (b + 1)) =
        ((a + 1 : ℕ) : ℝ) ^ (a + 1) * ((b + 1 : ℕ) : ℝ) ^ (b + 2) * w ^ a /
          (((b + 1 : ℕ) : ℝ) + ((a + 1 : ℕ) : ℝ) * w) ^ (a + b + 3) := by
      rw [div_pow, div_pow, mul_pow]
      field_simp
      ring
    rw [hL, hR, div_le_div_iff (by positivity) (by positivity)]
    have key := mobius_poly_ineq (a + 1 + b + 1) (a + 1) hm1 hmn hm2 w hw hw1
    rw [hBcast] at key
    rw [show a + 1 + b + 1 + 1 - 2 * (a + 1) = b + 1 - a from by omega,
      show a + 1 + b + 1 + 1 = a + b + 3 from by omega] at key
    have hsplit : w ^ (b + 1) = w ^ a * w ^ (b + 1 - a) := by
      rw [← pow_add]
      congr 1
      omega
    have hCnn : (0 : ℝ) ≤ ((a + 1 : ℕ) : ℝ) ^ (a + 1) * ((b + 1 : ℕ) : ℝ) ^ (b + 2) := by
      positivity
    calc ((a + 1 : ℕ) : ℝ) ^ (a + 1) * ((b + 1 : ℕ) : ℝ) ^ (b + 2) * w ^ (b + 1) *
          (((b + 1 : ℕ) : ℝ) + ((a + 1 : ℕ) : ℝ) * w) ^ (a + b + 3)
        = (((a + 1 : ℕ) : ℝ) ^ (a + 1) * ((b + 1 : ℕ) : ℝ) ^ (b + 2)) *
          (w ^ a * (w ^ (b + 1 - a) *
            (((b + 1 : ℕ) : ℝ) + ((a + 1 : ℕ) : ℝ) * w) ^ (a + b + 3))) := by
          rw [hsplit]
          ring
      _ ≤ (((a + 1 : ℕ) : ℝ) ^ (a + 1) * ((b + 1 : ℕ) : ℝ) ^ (b + 2)) *
          (w ^ a * ((((b + 1 : ℕ) : ℝ) * w + ((a + 1 : ℕ) : ℝ)) ^ (a + b + 3))) :=
          mul_le_mul_of_nonneg_left
            (mul_le_mul_of_nonneg_left key (pow_nonneg hw0 a)) hCnn
      _ = ((a + 1 : ℕ) : ℝ) ^ (a + 1) * ((b + 1 : ℕ) : ℝ) ^ (b + 2) * w ^ a *
          (((b + 1 : ℕ) : ℝ) * w + ((a + 1 : ℕ) : ℝ)) ^ (a + b + 3) := by
          ring

set_option maxHeartbeats 1000000 in
theorem mobius_integral_ge (n m : ℕ) (hm1 : 1 ≤ m) (hmn : m < n) (hm2 : 2 * m ≤ n + 1) :
    ∫ t in ((m : ℝ) / n)..1, t ^ (m - 1) * (1 - t) ^ (n - m) ≤
      ∫ t in (0 : ℝ)..((m : ℝ) / n), t ^ (m - 1) * (1 - t) ^ (n - m) := by
  have hM0 : (0 : ℝ) < (m : ℝ) := by exact_mod_cast hm1
  have hB0 : (0 : ℝ) < (n : ℝ) - m := by
    have : (m : ℝ) < (n : ℝ) := by exact_mod_cast hmn
    linarith
  have hBM : ((n : ℝ) - m) + (m : ℝ) = (n : ℝ) := by ring
  have huIcc : Set.uIcc (0 : ℝ) 1 = Set.Icc 0 1 := Set.uIcc_of_le zero_le_one
  have hgcont : Continuous fun t : ℝ => t ^ (m - 1) * (1 - t) ^ (n - m) := by continuity
  have hden1 : ∀ x : ℝ, 0 ≤ x → (0 : ℝ) < ((n : ℝ) - m) + (m : ℝ) * x := by
    intro x hx
    have := mul_nonneg hM0.le hx
    linarith
  have hden2 : ∀ x : ℝ, 0 ≤ x → (0 : ℝ) < ((n : ℝ) - m) * x + (m : ℝ) := by
    intro x hx
    have := mul_nonneg hB0.le hx
    linarith
  have hder1 : ∀ x ∈ Set.uIcc (0 : ℝ) 1, HasDerivAt
      (fun w => (m : ℝ) * w / (((n : ℝ) - m) + (m : ℝ) * w))
      ((m : ℝ) * ((n : ℝ) - m) / (((n : ℝ) - m) + (m : ℝ) * x) ^ 2) x := by
    intro x hx
    rw [huIcc] at hx
    have hpos := hden1 x hx.1
    have hnum : HasDerivAt (fun w : ℝ => (m : ℝ) * w) (m : ℝ) x := by
      simpa using (hasDerivAt_id x).const_mul (m : ℝ)
    have hdend : HasDerivAt (fun w : ℝ => ((n : ℝ) - m) + (m : ℝ) * w) (m : ℝ) x := by
      simpa using ((hasDerivAt_id x).const_mul (m : ℝ)).const_add ((n : ℝ) - m)
    have h := hnum.div hdend hpos.ne'
    convert h using 1
    congr 1
    ring
  have hcont1 : ContinuousOn
      (fun x : ℝ => (m : ℝ) * ((n : ℝ) - m) / (((n : ℝ) - m) + (m : ℝ) * x) ^ 2)
      (Set.uIcc (0 : ℝ) 1) := by
    rw [huIcc]
    apply ContinuousOn.div continuousOn_const (Continuous.continuousOn (by continuity))
    intro x hx
    exact pow_ne_zero 2 (hden1 x hx.1).ne'
  have hsub1 : (∫ x in (0 : ℝ)..1,
        ((m : ℝ) * ((n : ℝ) - m) / (((n : ℝ) - m) + (m : ℝ) * x) ^ 2) •
          ((fun t : ℝ => t ^ (m - 1) * (1 - t) ^ (n - m)) ∘
            (fun w => (m : ℝ) * w / (((n : ℝ) - m) + (m : ℝ) * w))) x) =
      ∫ t in ((m : ℝ) * 0 / (((n : ℝ) - m) + (m : ℝ) * 0))..((m : ℝ) * 1 /
          (((n : ℝ) - m) + (m : ℝ) * 1)),
        t ^ (m - 1) * (1 - t) ^ (n - m) :=
    intervalIntegral.integral_comp_smul_deriv hder1 hcont1 hgcont
  have hend1 : (m : ℝ) * 0 / (((n : ℝ) - m) + (m : ℝ) * 0) = 0 := by
    rw [mul_zero, zero_div]
  have hend2 : (m : ℝ) * 1 / (((n : ℝ) - m) + (m : ℝ) * 1) = (m : ℝ) / n := by
    rw [mul_one, hBM]
  rw [hend1, hend2] at hsub1
  simp only [Function.comp_apply, smul_eq_mul] at hsub1
  have hder2 : ∀ x ∈ Set.uIcc (0 : ℝ) 1, HasDerivAt
      (fun w => (m : ℝ) / (((n : ℝ) - m) * w + (m : ℝ)))
      (-((m : ℝ) * ((n : ℝ) - m) / (((n : ℝ) - m) * x + (m : ℝ)) ^ 2)) x := by
    intro x hx
    rw [huIcc] at hx
    have hpos := hden2 x hx.1
    have hnum : HasDerivAt (fun _ : ℝ => (m : ℝ)) 0 x := hasDerivAt_const x (m : ℝ)
    have hdend : HasDerivAt (fun w : ℝ => ((n : ℝ) - m) * w + (m : ℝ)) ((n : ℝ) - m) x := by
      simpa using ((hasDerivAt_id x).const_mul ((n : ℝ) - m)).add_const (m : ℝ)
    have h := hnum.div hdend hpos.ne'
    convert h using 1
    rw [← neg_div]
    congr 1
    ring
  have hcont2 : ContinuousOn
      (fun x : ℝ => -((m : ℝ) * ((n : ℝ) - m) / (((n : ℝ) - m) * x + (m : ℝ)) ^ 2))
      (Set.uIcc (0 : ℝ) 1) := by
    rw [huIcc]
    apply ContinuousOn.neg
    apply ContinuousOn.div continuousOn_const (Continuous.continuousOn (by continuity))
    intro x hx
    exact pow_ne_zero 2 (hden2 x hx.1).ne'
  have hsub2 : (∫ x in (0 : ℝ)..1,
        (-((m : ℝ) * ((n : ℝ) - m) / (((n : ℝ) - m) * x + (m : ℝ)) ^ 2)) •
          ((fun t : ℝ => t ^ (m - 1) * (1 - t) ^ (n - m)) ∘
            (fun w => (m : ℝ) / (((n : ℝ) - m) * w + (m : ℝ)))) x) =
      ∫ t in ((m : ℝ) / (((n : ℝ) - m) * 0 + (m : ℝ)))..((m : ℝ) /
          (((n : ℝ) - m) * 1 + (m : ℝ))),
        t ^ (m - 1) * (1 - t) ^ (n - m) :=
    intervalIntegral.integral_comp_smul_deriv hder2 hcont2 hgcont
  have hend3 : (m : ℝ) / (((n : ℝ) - m) * 0 + (m : ℝ)) = 1 := by
    rw [mul_zero, zero_add, div_self hM0.ne']
  have hend4 : (m : ℝ) / (((n : ℝ) - m) * 1 + (m : ℝ)) = (m : ℝ) / n := by
    rw [mul_one, hBM]
  rw [hend3, hend4] at hsub2
  simp only [Function.comp_apply, smul_eq_mul, neg_mul] at hsub2
  rw [intervalIntegral.integral_neg] at hsub2
  have hflip : (∫ t in (1 : ℝ)..((m : ℝ) / n), t ^ (m - 1) * (1 - t) ^ (n - m)) =
      -∫ t in ((m : ℝ) / n)..1, t ^ (m - 1) * (1 - t) ^ (n - m) := by
    rw [intervalIntegral.integral_symm]
  rw [hflip] at hsub2
  have hq2 : ContinuousOn (fun x : ℝ => (m : ℝ) / (((n : ℝ) - m) * x + (m : ℝ)))
      (Set.Icc (0 : ℝ) 1) := by
    apply ContinuousOn.div continuousOn_const (Continuous.continuousOn (by continuity))
    intro x hx
    exact (hden2 x hx.1).ne'
  have hq1 : ContinuousOn (fun x : ℝ => (m : ℝ) * x / (((n : ℝ) - m) + (m : ℝ) * x))
      (Set.Icc (0 : ℝ) 1) := by
    apply ContinuousOn.div (Continuous.continuousOn (by continuity))
      (Continuous.continuousOn (by continuity))
    intro x hx
    exact (hden1 x hx.1).ne'
  have hint2 : IntervalIntegrable (fun x : ℝ =>
      (m : ℝ) * ((n : ℝ) - m) / (((n : ℝ) - m) * x + (m : ℝ)) ^ 2 *
        (((m : ℝ) / (((n : ℝ) - m) * x + (m : ℝ))) ^ (m - 1) *
          (1 - (m : ℝ) / (((n : ℝ) - m) * x + (m : ℝ))) ^ (n - m)))
      MeasureTheory.volume 0 1 := by
    apply ContinuousOn.intervalIntegrable
    rw [huIcc]
    apply ContinuousOn.mul
    · apply ContinuousOn.div continuousOn_const (Continuous.continuousOn (by continuity))
      intro x hx
      exact pow_ne_zero 2 (hden2 x hx.1).ne'
    · exact (hq2.pow _).mul ((continuousOn_const.sub hq2).pow _)
  have hint1 : IntervalIntegrable (fun x : ℝ =>
      (m : ℝ) * ((n : ℝ) - m) / (((n : ℝ) - m) + (m : ℝ) * x) ^ 2 *
        (((m : ℝ) * x / (((n : ℝ) - m) + (m : ℝ) * x)) ^ (m - 1) *
          (1 - (m : ℝ) * x / (((n : ℝ) - m) + (m : ℝ) * x)) ^ (n - m)))
      MeasureTheory.volume 0 1 := by
    apply ContinuousOn.intervalIntegrable
    rw [huIcc]
    apply ContinuousOn.mul
    · apply ContinuousOn.div continuousOn_const (Continuous.continuousOn (by continuity))
      intro x hx
      exact pow_ne_zero 2 (hden1 x hx.1).ne'
    · exact (hq1.pow _).mul ((continuousOn_const.sub hq1).pow _)
  have hmono := intervalIntegral.integral_mono_on zero_le_one hint2 hint1
    (fun x hx => mobius_pointwise n m hm1 hmn hm2 x hx.1 hx.2)
  linarith [hmono, hsub1, hsub2]

theorem binomCDF_le_half (n m : ℕ) (hm1 : 1 ≤ m) (hmn : m < n) (hm2 : 2 * m ≤ n + 1) :
    binomCDF (m - 1) n ((m : ℝ) / n) ≤ 1 / 2 := by
  have hkn : m - 1 < n := by omega
  have hchoose : (0 : ℝ) < ((n - 1).choose (m - 1) : ℝ) := by
    exact_mod_cast Nat.choose_pos (by omega)
  have hc : (0 : ℝ) < (n : ℝ) * ((n - 1).choose (m - 1) : ℝ) := by
    have : (0 : ℝ) < (n : ℝ) := by exact_mod_cast (by omega : 0 < n)
    positivity
  have hexp : n - 1 - (m - 1) = n - m := by omega
  have h1 := binomCDF_sub_integral (m - 1) n hkn 0 ((m : ℝ) / n)
  have h2 := binomCDF_sub_integral (m - 1) n hkn ((m : ℝ) / n) 1
  rw [binomCDF_at_zero] at h1
  rw [binomCDF_at_one (m - 1) n hkn] at h2
  simp only [hexp] at h1 h2
  have hrw : ∀ x y : ℝ,
      (∫ t in x..y,
        ((n : ℝ) * ((n - 1).choose (m - 1) : ℝ) * t ^ (m - 1) * (1 - t) ^ (n - m))) =
      (n : ℝ) * ((n - 1).choose (m - 1) : ℝ) *
        ∫ t in x..y, t ^ (m - 1) * (1 - t) ^ (n - m) := by
    intro x y
    rw [← intervalIntegral.integral_const_mul]
    apply intervalIntegral.integral_congr
    intro t _
    ring
  rw [hrw] at h1 h2
  have hmob := mobius_integral_ge n m hm1 hmn hm2
  nlinarith [mul_le_mul_of_nonneg_left hmob hc.le]

theorem cast_sub_div (n s : ℕ) (hsn : s ≤ n) (hn : 0 < n) :
    1 - (s : ℝ) / n = ((n - s : ℕ) : ℝ) / n := by
  have hn0 : ((n : ℝ)) ≠ 0 := by
    exact_mod_cast hn.ne'
  rw [Nat.cast_sub hsn]
  field_simp

theorem binomCDF_median_lower (n s : ℕ) (hs1 : 1 ≤ s) (hsn : s < n) :
    binomCDF (s - 1) n ((s : ℝ) / n) ≤ 1 / 2 := by
  by_cases h : 2 * s ≤ n + 1
  · exact binomCDF_le_half n s hs1 hsn h
  · have hcomp := binomCDF_complement (s - 1) n (by omega) ((s : ℝ) / n)
    rw [show n - (s - 1) - 1 = n - s from by omega] at hcomp
    rw [cast_sub_div n s hsn.le (by omega)] at hcomp
    have hge := binomCDF_ge_half n (n - s) (by omega) (by omega)
    linarith

theorem binomCDF_median_upper (n s : ℕ) (hs1 : 1 ≤ s) (hsn : s < n) :
    1 / 2 ≤ binomCDF s n ((s : ℝ) / n) := by
  by_cases h : 2 * s ≤ n
  · exact binomCDF_ge_half n s hs1 h
  · have hcomp := binomCDF_complement s n hsn ((s : ℝ) / n)
    rw [cast_sub_div n s hsn.le (by omega)] at hcomp
    have hle := binomCDF_le_half n (n - s) (by omega) (by omega) (by omega)
    linarith

/-! ### Claim C8: ordering invariant of the exact interval -/

/-- Claim C8: under the root-solver contract, the exact Clopper-Pearson
interval of `binomialCI` satisfies `0 ≤ lo ≤ obsProb ≤ hi ≤ 1`, with
`lo = 0` iff `nSuccess = 0` and `hi = 1` iff `nSuccess = nTotal`.  The two
middle inequalities are the binomial mean-median inequality: the cdf of
`Bin(n, s/n)` at `s - 1` is at most `1/2 < 1 - alpha/2` and at `s` is at
least `1/2 > alpha/2`, so strict antitonicity of the cdf in `p` places the
roots on the correct sides of the observed proportion. -/
theorem claim_C8 (fsolve : (ℝ → ℝ) → ℝ → ℝ) (normPPF : ℝ → ℝ) (ntot nsuc : ℕ)
    (alpha : ℝ) (hn : 0 < ntot) (hsn : nsuc ≤ ntot) (ha0 : 0 < alpha) (ha1 : alpha < 1)
    (hlo : nsuc ≠ 0 →
      fsolve (fun x => binomCDF (nsuc - 1) ntot x - 1 + alpha / 2) ((nsuc : ℝ) / ntot)
          ∈ Set.Icc (0 : ℝ) 1 ∧
        binomCDF (nsuc - 1) ntot
          (fsolve (fun x => binomCDF (nsuc - 1) ntot x - 1 + alpha / 2) ((nsuc : ℝ) / ntot))
          = 1 - alpha / 2)
    (hup : nsuc ≠ ntot →
      fsolve (fun x => binomCDF nsuc ntot x - alpha / 2) ((nsuc : ℝ) / ntot)
          ∈ Set.Icc (0 : ℝ) 1 ∧
        binomCDF nsuc ntot
          (fsolve (fun x => binomCDF nsuc ntot x - alpha / 2) ((nsuc : ℝ) / ntot))
          = alpha / 2) :
    0 ≤ (binomialCI fsolve normPPF ntot nsuc alpha).1.1 ∧
    (binomialCI fsolve normPPF ntot nsuc alpha).1.1 ≤ (nsuc : ℝ) / ntot ∧
    (nsuc : ℝ) / ntot ≤ (binomialCI fsolve normPPF ntot nsuc alpha).1.2 ∧
    (binomialCI fsolve normPPF ntot nsuc alpha).1.2 ≤ 1 ∧
    ((binomialCI fsolve normPPF ntot nsuc alpha).1.1 = 0 ↔ nsuc = 0) ∧
    ((binomialCI fsolve normPPF ntot nsuc alpha).1.2 = 1 ↔ nsuc = ntot) := by
  have hn0 : (0 : ℝ) < (ntot : ℝ) := by exact_mod_cast hn
  have hobs0 : 0 ≤ (nsuc : ℝ) / ntot := by positivity
  have hobs1 : (nsuc : ℝ) / ntot ≤ 1 := by
    rw [div_le_one hn0]
    exact_mod_cast hsn
  have Hlo : 0 ≤ (binomialCI fsolve normPPF ntot nsuc alpha).1.1 ∧
      (binomialCI fsolve normPPF ntot nsuc alpha).1.1 ≤ (nsuc : ℝ) / ntot ∧
      ((binomialCI fsolve normPPF ntot nsuc alpha).1.1 = 0 ↔ nsuc = 0) := by
    by_cases h0 : nsuc = 0
    · subst h0
      rw [binomialCI_plo_zero fsolve normPPF ntot alpha]
      exact ⟨le_rfl, hobs0, by simp⟩
    · obtain ⟨hmem, hroot⟩ := hlo h0
      have heq := binomialCI_plo_solver fsolve normPPF ntot nsuc alpha h0
      rw [heq]
      refine ⟨hmem.1, ?_, ?_⟩
      · by_cases hN : nsuc = ntot
        · subst hN
          exact hmem.2.trans ((div_self hn0.ne').symm.le)
        · have hlt : nsuc < ntot := lt_of_le_of_ne hsn hN
          by_contra hgt
          push_neg at hgt
          have hmed := binomCDF_median_lower ntot nsuc (by omega) hlt
          have hklt : nsuc - 1 < ntot := by omega
          have hanti := binomCDF_strictAntiOn ntot (nsuc - 1) hklt
          have hcdflt := hanti ⟨hobs0, hobs1⟩ hmem hgt
          simp only at hcdflt
          rw [hroot] at hcdflt
          linarith
      · constructor
        · intro hzero
          exfalso
          rw [hzero, binomCDF_at_zero] at hroot
          linarith
        · intro hc
          exact absurd hc h0
  have Hup : (nsuc : ℝ) / ntot ≤ (binomialCI fsolve normPPF ntot nsuc alpha).1.2 ∧
      (binomialCI fsolve normPPF ntot nsuc alpha).1.2 ≤ 1 ∧
      ((binomialCI fsolve normPPF ntot nsuc alpha).1.2 = 1 ↔ nsuc = ntot) := by
    by_cases h1 : nsuc = ntot
    · subst h1
      rw [binomialCI_pup_one fsolve normPPF nsuc alpha]
      exact ⟨hobs1, le_rfl, by simp⟩
    · obtain ⟨hmem, hroot⟩ := hup h1
      have heq := binomialCI_pup_solver fsolve normPPF ntot nsuc alpha h1
      rw [heq]
      have hlt : nsuc < ntot := lt_of_le_of_ne hsn h1
      refine ⟨?_, hmem.2, ?_⟩
      · by_cases hz : nsuc = 0
        · subst hz
          have hcast : ((0 : ℕ) : ℝ) / (ntot : ℝ) = 0 := by simp
          exact le_trans (le_of_eq hcast) hmem.1
        · by_contra hgt
          push_neg at hgt
          have hmed := binomCDF_median_upper ntot nsuc (by omega) hlt
          have hanti := binomCDF_strictAntiOn ntot nsuc hlt
          have hcdflt := hanti hmem ⟨hobs0, hobs1⟩ hgt
          simp only at hcdflt
          rw [hroot] at hcdflt
          linarith
      · constructor
        · intro hone
          exfalso
          rw [hone, binomCDF_at_one nsuc ntot hlt] at hroot
          linarith
        · intro hc
          exact absurd hc h1
  exact ⟨Hlo.1, Hlo.2.1, Hup.1, Hup.2.1, Hlo.2.2, Hup.2.2⟩

theorem claim_C8_witness :
    0 ≤ (binomialCI (fun _ _ => 3 / 4) (fun _ => 0) 1 0 (1 / 2)).1.1 ∧
    (binomialCI (fun _ _ => 3 / 4) (fun _ => 0) 1 0 (1 / 2)).1.1
        ≤ ((0 : ℕ) : ℝ) / ((1 : ℕ) : ℝ) ∧
    ((0 : ℕ) : ℝ) / ((1 : ℕ) : ℝ)
        ≤ (binomialCI (fun _ _ => 3 / 4) (fun _ => 0) 1 0 (1 / 2)).1.2 ∧
    (binomialCI (fun _ _ => 3 / 4) (fun _ => 0) 1 0 (1 / 2)).1.2 ≤ 1 ∧
    ((binomialCI (fun _ _ => 3 / 4) (fun _ => 0) 1 0 (1 / 2)).1.1 = 0 ↔ (0 : ℕ) = 0) ∧
    ((binomialCI (fun _ _ => 3 / 4) (fun _ => 0) 1 0 (1 / 2)).1.2 = 1 ↔ (0 : ℕ) = 1) := by
  have hup : (0 : ℕ) ≠ 1 →
      (fun _ _ => (3 : ℝ) / 4) (fun x => binomCDF 0 1 x - 1 / 2 / 2)
          (((0 : ℕ) : ℝ) / ((1 : ℕ) : ℝ)) ∈ Set.Icc (0 : ℝ) 1 ∧
        binomCDF 0 1 ((fun _ _ => (3 : ℝ) / 4) (fun x => binomCDF 0 1 x - 1 / 2 / 2)
          (((0 : ℕ) : ℝ) / ((1 : ℕ) : ℝ))) = 1 / 2 / 2 := by
    intro h
    constructor
    · show (3 / 4 : ℝ) ∈ Set.Icc (0 : ℝ) 1
      rw [Set.mem_Icc]
      norm_num
    · show binomCDF 0 1 (3 / 4) = 1 / 2 / 2
      rw [binomCDF_zero_k]
      norm_num
  exact claim_C8 (fun _ _ => 3 / 4) (fun _ => 0) 1 0 (1 / 2) (by norm_num) (by norm_num)
    (by norm_num) (by norm_num) (fun h0 => absurd rfl h0) hup
